import Mathlib

/-
Verification of the insertion-evaluation engine of the permutation-flowshop
repository (src/calculations.pyx): taillard_acceleration, tie_breaking,
calculate_completion_times and calculate_idle_times.

The Cython code works imperatively on fixed-size C arrays
(e[801][61], q[801][61], f[801][61], ms[801], fl[801][61]) that are NOT
initialized.  We embed each array as a total function Nat -> Nat -> Int
(resp. Nat -> Int) and each loop as a fold that threads the array state;
the initial contents of the scratch arrays are an explicit parameter
(structure TScr below), so that dependence on uninitialized memory is
observable in the model.  Machine integers are modelled by Int; the claims
only concern non-negative processing times and the computed values stay far
from any 32-bit bound, so no wrap-around modelling is needed.
-/

/-- Pointwise update of a 1-dimensional integer array modelled as a function. -/
def upd1 (g : Nat → Int) (a : Nat) (v : Int) : Nat → Int :=
  fun x => if x = a then v else g x

/-- Pointwise update of a 2-dimensional integer array modelled as a function. -/
def upd2 (g : Nat → Nat → Int) (a b : Nat) (v : Int) : Nat → Nat → Int :=
  fun x y => if x = a ∧ y = b then v else g x y

/-- The scratch arrays of taillard_acceleration and tie_breaking
(src/calculations.pyx lines 34-37 and 128): e, q, f, ms, fl.
They are stack-allocated C arrays and are not initialized, so a value of
this structure records one possible initial content of that memory. -/
structure TScr where
  e : Nat → Nat → Int
  q : Nat → Nat → Int
  f : Nat → Nat → Int
  ms : Nat → Int
  fl : Nat → Nat → Int

/-- All-zero scratch memory. -/
def zeroScr : TScr :=
  ⟨fun _ _ => 0, fun _ _ => 0, fun _ _ => 0, fun _ => 0, fun _ _ => 0⟩

/-- Writes performed before the inner loop of iteration i of the main loop of
taillard_acceleration (lines 46-55): when i < n+1, e[i][0] = 0 and
(after iq is decremented to n+1-i) q[iq][m+1] = 0; always f[i][0] = 0. -/
def outerInit (n m i : Nat) (s : TScr) : TScr :=
  let s1 := if i < n + 1 then
      { s with e := upd2 s.e i 0 0, q := upd2 s.q (n + 1 - i) (m + 1) 0 }
    else s
  { s1 with f := upd2 s1.f i 0 0 }

/-- First phase of the inner-loop body of taillard_acceleration (lines
58-60): when i = 1, the boundary writes e[0][j] = 0 and
q[n+1][m+1-j] = 0. -/
def mainB1 (n m i j : Nat) (s : TScr) : TScr :=
  if i = 1 then
    { s with e := upd2 s.e 0 j 0, q := upd2 s.q (n + 1) (m + 1 - j) 0 }
  else s

/-- Second phase of the inner-loop body (lines 61-73): when i < n+1, the
writes e[i][j] = max(e[i][j-1], e[i-1][j]) + p[seq[i-1]-1][j-1] and (with
iq = n+1-i, jq = m+1-j) q[iq][jq] = max(q[iq][jq+1], q[iq+1][jq]) +
p[seq[iq-1]-1][jq-1].  The e write precedes the q write in the source; the
q computation does not read e, so the two updates are recorded in one
record update. -/
def mainB2 (n m : Nat) (seq : List Nat) (p : Nat → Nat → Int) (i j : Nat)
    (s : TScr) : TScr :=
  if i < n + 1 then
    let ev := max (s.e i (j - 1)) (s.e (i - 1) j) + p (seq.getD (i - 1) 0 - 1) (j - 1)
    let qv := max (s.q (n + 1 - i) (m + 1 - j + 1)) (s.q (n + 1 - i + 1) (m + 1 - j))
      + p (seq.getD (n + 1 - i - 1) 0 - 1) (m + 1 - j - 1)
    { s with e := upd2 s.e i j ev, q := upd2 s.q (n + 1 - i) (m + 1 - j) qv }
  else s

/-- Third phase of the inner-loop body (lines 76-79): the write
f[i][j] = max(f[i][j-1], e[i-1][j]) + p[inserting_job-1][j-1]. -/
def mainB3 (p : Nat → Nat → Int) (job i j : Nat) (s : TScr) : TScr :=
  let fv := max (s.f i (j - 1)) (s.e (i - 1) j) + p (job - 1) (j - 1)
  { s with f := upd2 s.f i j fv }

/-- Body of the inner loop of taillard_acceleration (lines 57-79) at outer
index i and inner index j (both 1-based).  The source branch
"if x > y: a = x + p else a = y + p" is written max x y + p. -/
def mainBody (n m : Nat) (seq : List Nat) (p : Nat → Nat → Int) (job i j : Nat)
    (s : TScr) : TScr :=
  mainB3 p job i j (mainB2 n m seq p i j (mainB1 n m i j s))

/-- The main loop of taillard_acceleration (lines 42-79): i runs over
1..n+1, j over 1..m. -/
def mainLoop (seq : List Nat) (p : Nat → Nat → Int) (job m : Nat) (init : TScr) : TScr :=
  let n := seq.length
  (List.range (n + 1)).foldl
    (fun s i0 =>
      let i := i0 + 1
      (List.range m).foldl (fun s j0 => mainBody n m seq p job i (j0 + 1) s)
        (outerInit n m i s))
    init

/-- One step of the makespan accumulation (lines 88-90) at machine index
jx+1: tmp = f[i][j] + q[i][j] and ms[i] = tmp whenever tmp > ms[i]. -/
def msB (i jx : Nat) (s : TScr) : TScr :=
  if s.ms i < s.f i (jx + 1) + s.q i (jx + 1) then
    { s with ms := upd1 s.ms i (s.f i (jx + 1) + s.q i (jx + 1)) }
  else s

/-- One iteration of the makespan loop (lines 86-90): ms[i] = 0, then the
accumulation over j = 1..m. -/
def msStep (m i : Nat) (s : TScr) : TScr :=
  (List.range m).foldl (fun s j0 => msB i j0 s) { s with ms := upd1 s.ms i 0 }

/-- One iteration of the selection part (lines 86-94) at position i0+1:
compute ms[i] and update (best_position, best_makespan) whenever
ms[i] < best_makespan or best_makespan == 0. -/
def selB (m : Nat) (acc : TScr × Nat × Int) (i0 : Nat) : TScr × Nat × Int :=
  if (msStep m (i0 + 1) acc.1).ms (i0 + 1) < acc.2.2 ∨ acc.2.2 = 0 then
    (msStep m (i0 + 1) acc.1, i0 + 1, (msStep m (i0 + 1) acc.1).ms (i0 + 1))
  else (msStep m (i0 + 1) acc.1, acc.2.1, acc.2.2)

/-- The makespan-and-selection loop of taillard_acceleration (lines 83-94):
for i = 1..n+1 compute ms[i], and update (best_position, best_makespan)
whenever ms[i] < best_makespan or best_makespan == 0 (both start at 0). -/
def msSelLoop (n m : Nat) (s : TScr) : TScr × Nat × Int :=
  (List.range (n + 1)).foldl (selB m) (s, 0, 0)

/-- The "last position" branch of tie_breaking (lines 142-144): the idle
estimate accumulated when the tied position i equals sequence_length. -/
def tbLast (p : Nat → Nat → Int) (job n m : Nat) (s : TScr) : Int :=
  (List.range m).foldl
    (fun it j0 =>
      let j := j0 + 1
      it + (s.f n j - s.e (n - 1) j - p (job - 1) (j - 1)))
    0

/-- The "not last position" branch of tie_breaking (lines 147-157):
fl[i][1] = f[i][1] + p[i-1][0], then for j = 2..m the idle estimate is
accumulated and fl[i][j] is assigned; note that the source's else branch
(line 157) reads fl[i][j] itself, i.e. a cell that has never been written. -/
def tbElse (p : Nat → Nat → Int) (job m i : Nat) (s : TScr) : TScr × Int :=
  (List.range (m - 1)).foldl
    (fun acc j0 =>
      let j := j0 + 2
      let s := acc.1
      let it := acc.2 + (s.f i j - s.e i j + p (i - 1) (j - 1) - p (job - 1) (j - 1))
      let it := if 0 < s.fl i (j - 1) - s.f i j then it + (s.fl i (j - 1) - s.f i j) else it
      let s :=
        if s.f i j < s.fl i (j - 1) then
          { s with fl := upd2 s.fl i j (s.fl i (j - 1) + p (i - 1) (j - 1)) }
        else
          { s with fl := upd2 s.fl i j (s.fl i j + p (i - 1) (j - 1)) }
      (s, it))
    ({ s with fl := upd2 s.fl i 1 (s.f i 1 + p (i - 1) 0) }, 0)

/-- tie_breaking (lines 104-163): best_makespan = ms[best_position] is fixed
at entry, itbp starts at 2000000, and every position i in 1..n+1 with
ms[i] == best_makespan gets an idle estimate it (last-position branch when
i = sequence_length, otherwise the fl branch); the position with the least
estimate (first occurrence on equality) is returned.  The counter num_ties
of the source is omitted: it does not influence the result. -/
def tie_breaking (p : Nat → Nat → Int) (job bp0 n m : Nat) (s : TScr) : Nat :=
  let bmk := s.ms bp0
  let r :=
    (List.range (n + 1)).foldl
      (fun acc i0 =>
        let i := i0 + 1
        if acc.1.ms i = bmk then
          let si := if i = n then (acc.1, tbLast p job n m acc.1) else tbElse p job m i acc.1
          if si.2 < acc.2.2 then (si.1, i, si.2) else (si.1, acc.2.1, acc.2.2)
        else acc)
      (s, bp0, (2000000 : Int))
  r.2.1

/-- taillard_acceleration (lines 13-99): run the main loop, the
makespan-and-selection loop, then optionally tie_breaking, and return
(best_position, best_makespan).  seq holds 1-based job ids, p is the
processing-time matrix indexed by (job id - 1, machine index - 1), job is
the inserting job, m the number of machines, tb the use_tie_breaking flag,
and init the initial (uninitialized in C) content of the scratch arrays. -/
def taillard_acceleration (seq : List Nat) (p : Nat → Nat → Int) (job m tb : Nat)
    (init : TScr) : Nat × Int :=
  let n := seq.length
  let s := mainLoop seq p job m init
  let r := msSelLoop n m s
  let bp := if 0 < tb then tie_breaking p job r.2.1 n m r.1 else r.2.1
  (bp, r.2.2)

/-- Body of the loop of calculate_completion_times (lines 190-199) at row i,
column j (both 1-based): when i = 1 first e[0][j] = 0, then
e[i][j] = max(e[i-1][j], e[i][j-1]) + p[seq[i-1]-1][j-1]. -/
def cctStep (seq : List Nat) (p : Nat → Nat → Int) (i j : Nat)
    (e : Nat → Nat → Int) : Nat → Nat → Int :=
  let e1 := if i = 1 then upd2 e 0 j 0 else e
  upd2 e1 i j (max (e1 (i - 1) j) (e1 i (j - 1)) + p (seq.getD (i - 1) 0 - 1) (j - 1))

/-- The completion-time table built by calculate_completion_times
(lines 188-199).  Unlike the scratch arrays of taillard_acceleration, this
array is allocated with numpy zeros, so the initial state is the zero
function. -/
def cctE (seq : List Nat) (p : Nat → Nat → Int) (m : Nat) : Nat → Nat → Int :=
  (List.range seq.length).foldl
    (fun e i0 =>
      let i := i0 + 1
      (List.range m).foldl (fun e j0 => cctStep seq p i (j0 + 1) e) (upd2 e i 0 0))
    (fun _ _ => 0)

/-- calculate_completion_times with return_array = 1 (line 204): the full
table. -/
def calculate_completion_times_array (seq : List Nat) (p : Nat → Nat → Int)
    (m : Nat) : Nat → Nat → Int :=
  cctE seq p m

/-- calculate_completion_times with return_array = 0 (line 206): the entry
e[sequence_length, num_machines]. -/
def calculate_completion_times_scalar (seq : List Nat) (p : Nat → Nat → Int)
    (m : Nat) : Int :=
  cctE seq p m seq.length m

/-- calculate_idle_times (lines 211-237): allocate a zero vector, compute the
full completion-time table, and for every sequence index i accumulate
e[i+1,j] - p[seq[i]-1, j-1] - e[i,j] over j = 1..m into entry seq[i] - 1. -/
def calculate_idle_times (seq : List Nat) (p : Nat → Nat → Int) (m : Nat) :
    Nat → Int :=
  let e := cctE seq p m
  (List.range seq.length).foldl
    (fun idle i =>
      (List.range m).foldl
        (fun idle j0 =>
          let j := j0 + 1
          upd1 idle (seq.getD i 0 - 1)
            (idle (seq.getD i 0 - 1) + (e (i + 1) j - p (seq.getD i 0 - 1) (j - 1) - e i j)))
        (upd1 idle (seq.getD i 0 - 1) 0))
    (fun _ => 0)

/-- One row of the forward completion-time recurrence: given the previous
row (as a function of the 1-based machine index) and the processing times r
of the current job (0-based machine index), the current row. -/
def ectRow (prev r : Nat → Int) : Nat → Int
  | 0 => 0
  | j + 1 => max (prev (j + 1)) (ectRow prev r j) + r j

/-- Forward completion-time row of the last job of l (row 0 for l = []). -/
def ectl (p : Nat → Nat → Int) (l : List Nat) : Nat → Int :=
  l.foldl (fun prev x => ectRow prev (p (x - 1))) (fun _ => 0)

/-- The forward completion-time table of a sequence: ect p l i j is the
completion time of the i-th job of l (1-based) on machine j (1-based), with
row 0 and column 0 equal to 0. -/
def ect (p : Nat → Nat → Int) (l : List Nat) (i : Nat) : Nat → Int :=
  ectl p (l.take i)

/-- Backward (tail) recurrence row with explicit fuel k = m + 1 - j: given
the row of the remaining suffix and the processing times r of the current
job, the value at machine j. -/
def qrowF (next r : Nat → Int) : Nat → Nat → Int
  | 0, _ => 0
  | k + 1, j => max (qrowF next r k (j + 1)) (next j) + r (j - 1)

/-- Backward (tail) recurrence row at machine j, vanishing for j > m. -/
def qrow (m : Nat) (next r : Nat → Int) (j : Nat) : Int :=
  qrowF next r (m + 1 - j) j

/-- The tail table: qtail p m l j is the time needed to complete all jobs of
the suffix l on machines j..m when they start as early as possible, i.e. the
value q[i][j] of the source for l the suffix of the sequence from position i. -/
def qtail (p : Nat → Nat → Int) (m : Nat) : List Nat → Nat → Int :=
  List.foldr (fun x next => qrow m next (p (x - 1))) (fun _ => 0)

/-- The insertion row: fins p seq job i j is the completion time f[i][j] of
the inserting job on machine j when inserted at position i, following
f[i][j] = max(f[i][j-1], e[i-1][j]) + p[job-1][j-1]. -/
def fins (p : Nat → Nat → Int) (seq : List Nat) (job i : Nat) : Nat → Int
  | 0 => 0
  | j + 1 => max (fins p seq job i j) (ect p seq (i - 1) (j + 1)) + p (job - 1) j

/-- Maximum of g over the 1-based machine indices 1..m, floored at 0 (the
shape of the ms[i] accumulation of lines 86-90). -/
def maxJ (m : Nat) (g : Nat → Int) : Int :=
  (List.range m).foldl (fun a j0 => max a (g (j0 + 1))) 0

/-- The per-position makespan ms[i] computed by lines 86-90, in closed form:
the floored maximum over machines of f[i][j] + q[i][j]. -/
def msPure (seq : List Nat) (p : Nat → Nat → Int) (job m i : Nat) : Int :=
  maxJ m (fun j => fins p seq job i j + qtail p m (seq.drop (i - 1)) j)

/-- The selection fold of lines 83-94 on a pure value function v: starting
from (0, 0), position i replaces the current best when v i < best or
best = 0. -/
def selP (v : Nat → Int) (k : Nat) : Nat × Int :=
  (List.range k).foldl
    (fun acc i0 => if v (i0 + 1) < acc.2 ∨ acc.2 = 0 then (i0 + 1, v (i0 + 1)) else acc)
    (0, 0)

/-- Closed form of taillard_acceleration with use_tie_breaking = 0: the
selection fold over the pure per-position makespans. -/
def taillard_pure (seq : List Nat) (p : Nat → Nat → Int) (job m : Nat) : Nat × Int :=
  selP (msPure seq p job m) (seq.length + 1)

/-- Insertion of job at the 1-based position i of seq (position n+1 appends). -/
def insertAt (seq : List Nat) (i job : Nat) : List Nat :=
  seq.take (i - 1) ++ job :: seq.drop (i - 1)

/-- The brute-force makespan of inserting job at position i: the scalar
produced by calculate_completion_times on the actually inserted sequence. -/
def bruteMakespan (seq : List Nat) (p : Nat → Nat → Int) (job m i : Nat) : Int :=
  calculate_completion_times_scalar (insertAt seq i job) p m


/-- Cells of the array e already written when the main loop of
taillard_acceleration has completed outer iterations 1..i-1, performed the
initial writes of iteration i, and executed inner steps 1..j0 of iteration i
(1 <= i <= n+1, 0 <= j0 <= m). -/
def eCov (n m i j0 a b : Nat) : Prop :=
  (b = 0 ∧ 1 ≤ a ∧ a ≤ i ∧ a ≤ n) ∨
  (1 ≤ b ∧ b ≤ m ∧ 1 ≤ a ∧ a ≤ n ∧ (a < i ∨ (a = i ∧ b ≤ j0))) ∨
  (a = 0 ∧ 1 ≤ b ∧ b ≤ m ∧ (2 ≤ i ∨ b ≤ j0))

/-- Cells of the array q already written at the same point of the main loop
as in eCov.  The q rows fill from row n upward: outer iteration i writes row
n+1-i (columns from m downward), and iteration 1 also writes row n+1. -/
def qCov (n m i j0 a b : Nat) : Prop :=
  (b = m + 1 ∧ 1 ≤ a ∧ a ≤ n ∧ n + 1 ≤ a + i) ∨
  (a = n + 1 ∧ 1 ≤ b ∧ b ≤ m ∧ (2 ≤ i ∨ m + 1 ≤ b + j0)) ∨
  (1 ≤ a ∧ a ≤ n ∧ 1 ≤ b ∧ b ≤ m ∧ (n + 2 ≤ a + i ∨ (a + i = n + 1 ∧ m + 1 ≤ b + j0)))

/-- Cells of the array f already written at the same point of the main loop
as in eCov. -/
def fCov (m i j0 a b : Nat) : Prop :=
  (b = 0 ∧ 1 ≤ a ∧ a ≤ i) ∨
  (1 ≤ b ∧ b ≤ m ∧ 1 ≤ a ∧ (a < i ∨ (a = i ∧ b ≤ j0)))

/-- Invariant of the main loop of taillard_acceleration: every cell already
written holds the value of the corresponding pure recurrence (forward table
ect, tail table qtail on the suffix starting at the row index, insertion
table fins). -/
def MInv (seq : List Nat) (p : Nat → Nat → Int) (job m i j0 : Nat) (s : TScr) : Prop :=
  (∀ a b, eCov seq.length m i j0 a b → s.e a b = ect p seq a b) ∧
  (∀ a b, qCov seq.length m i j0 a b → s.q a b = qtail p m (seq.drop (a - 1)) b) ∧
  (∀ a b, fCov m i j0 a b → s.f a b = fins p seq job a b)

/-- The (row, column) subscripts of every access (read or write) to the
2-dimensional scratch arrays e, q and f performed by outer iteration i of
the loops of taillard_acceleration itself (lines 46-79 for the main loop;
the makespan loop's f and q reads are listed by selAcc). -/
def mainAcc (n m i : Nat) : List (Nat × Nat) :=
  (if i < n + 1 then [(i, 0), (n + 1 - i, m + 1)] else []) ++
  [(i, 0)] ++
  (List.range m).flatMap (fun j0 =>
    (if i = 1 then [(0, j0 + 1), (n + 1, m + 1 - (j0 + 1))] else []) ++
    (if i < n + 1 then
        [(i, j0 + 1 - 1), (i - 1, j0 + 1), (i, j0 + 1),
         (n + 1 - i, m + 1 - (j0 + 1) + 1), (n + 1 - i + 1, m + 1 - (j0 + 1)),
         (n + 1 - i, m + 1 - (j0 + 1))]
      else []) ++
    [(i, j0 + 1 - 1), (i - 1, j0 + 1), (i, j0 + 1)])

/-- The (row, column) subscripts of the f and q reads of iteration i of the
makespan loop (line 88). -/
def selAcc (m i : Nat) : List (Nat × Nat) :=
  (List.range m).flatMap (fun j0 => [(i, j0 + 1), (i, j0 + 1)])

/-- All (row, column) subscripts used on the arrays e[801][61], q[801][61]
and f[801][61] during a call of taillard_acceleration with sequence length
n and num_machines m (tie_breaking excluded: it is a separate function). -/
def taillardAcc2D (n m : Nat) : List (Nat × Nat) :=
  (List.range (n + 1)).flatMap (fun i0 => mainAcc n m (i0 + 1) ++ selAcc m (i0 + 1))

/-- All subscripts used on the array ms[801] during a call of
taillard_acceleration with sequence length n (lines 86-93). -/
def taillardAccMs (n : Nat) : List Nat :=
  (List.range (n + 1)).flatMap (fun i0 => [i0 + 1])

/-- The indices written by calculate_idle_times into its freshly allocated
output vector of length n: line 234 and line 236 write entry
sequence[i] - 1 (computed in C int arithmetic, hence the Int type: a job id
of 0 gives index -1). -/
def idleWriteIndices (seq : List Nat) : List Int :=
  seq.map (fun x : Nat => (x : Int) - 1)

/-- The processing-time matrix of Scenario 2 of the specification:
p[job1] = [3,2], p[job2] = [2,4], p[job3] = [1,1]. -/
def pS2 : Nat → Nat → Int :=
  fun r c => (([[3, 2], [2, 4], [1, 1]] : List (List Int)).getD r []).getD c 0

/-- The all-zero processing-time matrix. -/
def pz : Nat → Nat → Int := fun _ _ => 0

/-- A second possible content of the uninitialized scratch memory: as
zeroScr except that the never-written cell e[3][2] holds 11. -/
def badScr : TScr :=
  { zeroScr with e := fun a b => if a = 3 ∧ b = 2 then 11 else 0 }

/-- Sum of the inserting job's processing times on machines 1..m. -/
def sumP (p : Nat → Nat → Int) (job m : Nat) : Int :=
  ∑ c ∈ Finset.range m, p (job - 1) c

theorem foldl_ectRow_col0 (p : Nat → Nat → Int) :
    ∀ (l : List Nat) (g : Nat → Int), g 0 = 0 →
      (l.foldl (fun prev x => ectRow prev (p (x - 1))) g) 0 = 0 := by
  intro l
  induction l with
  | nil => intro g hg; exact hg
  | cons x xs ih => intro g _; exact ih _ rfl

theorem ect_col0 (p : Nat → Nat → Int) (l : List Nat) (i : Nat) : ect p l i 0 = 0 :=
  foldl_ectRow_col0 p (l.take i) _ rfl

theorem ect_row0 (p : Nat → Nat → Int) (l : List Nat) (j : Nat) : ect p l 0 j = 0 := rfl

theorem getD_eq_getElem (l : List Nat) (i : Nat) (h : i < l.length) :
    l.getD i 0 = l[i] := by
  rw [List.getD_eq_getElem?_getD, List.getElem?_eq_getElem h]
  rfl

theorem ect_take_succ (p : Nat → Nat → Int) (l : List Nat) (i : Nat) (h : i < l.length) :
    ect p l (i + 1) = ectRow (ect p l i) (p (l.getD i 0 - 1)) := by
  have ht : l.take (i + 1) = l.take i ++ [l.getD i 0] := by
    rw [List.take_succ, List.getElem?_eq_getElem h, getD_eq_getElem l i h]
    rfl
  show ectl p (l.take (i + 1)) = _
  rw [ht]
  unfold ectl
  rw [List.foldl_append]
  rfl

theorem ect_succ (p : Nat → Nat → Int) (l : List Nat) (i : Nat) (h : i < l.length) (j : Nat) :
    ect p l (i + 1) (j + 1)
      = max (ect p l i (j + 1)) (ect p l (i + 1) j) + p (l.getD i 0 - 1) j := by
  rw [ect_take_succ p l i h]
  rfl

theorem qtail_cons_eq (p : Nat → Nat → Int) (m : Nat) (x : Nat) (xs : List Nat) :
    qtail p m (x :: xs) = qrow m (qtail p m xs) (p (x - 1)) := rfl

theorem qtail_hi (p : Nat → Nat → Int) (m : Nat) (l : List Nat) (j : Nat)
    (hj : m + 1 ≤ j) : qtail p m l j = 0 := by
  cases l with
  | nil => rfl
  | cons x xs =>
      rw [qtail_cons_eq]
      unfold qrow
      rw [Nat.sub_eq_zero_of_le hj]
      rfl

theorem qtail_cons (p : Nat → Nat → Int) (m : Nat) (x : Nat) (xs : List Nat) (j : Nat)
    (hj : j ≤ m) :
    qtail p m (x :: xs) j
      = max (qtail p m (x :: xs) (j + 1)) (qtail p m xs j) + p (x - 1) (j - 1) := by
  rw [qtail_cons_eq]
  unfold qrow
  rw [show m + 1 - j = (m - j) + 1 from by omega, show m + 1 - (j + 1) = m - j from by omega]
  rfl

theorem fins_zero_col (p : Nat → Nat → Int) (seq : List Nat) (job i : Nat) :
    fins p seq job i 0 = 0 := rfl

theorem fins_succ (p : Nat → Nat → Int) (seq : List Nat) (job i j : Nat) :
    fins p seq job i (j + 1)
      = max (fins p seq job i j) (ect p seq (i - 1) (j + 1)) + p (job - 1) j := rfl

theorem maxJ_zero (g : Nat → Int) : maxJ 0 g = 0 := rfl

theorem maxJ_succ (m : Nat) (g : Nat → Int) :
    maxJ (m + 1) g = max (maxJ m g) (g (m + 1)) := by
  unfold maxJ
  rw [List.range_succ, List.foldl_append]
  rfl

theorem maxJ_nonneg (m : Nat) (g : Nat → Int) : 0 ≤ maxJ m g := by
  induction m with
  | zero => exact le_refl 0
  | succ m ih => rw [maxJ_succ]; exact le_trans ih (le_max_left _ _)

theorem le_maxJ (m : Nat) (g : Nat → Int) (j : Nat) (h1 : 1 ≤ j) (h2 : j ≤ m) :
    g j ≤ maxJ m g := by
  induction m with
  | zero => omega
  | succ m ih =>
      rw [maxJ_succ]
      rcases Nat.lt_or_ge j (m + 1) with h | h
      · exact le_trans (ih (by omega)) (le_max_left _ _)
      · have : j = m + 1 := by omega
        subst this
        exact le_max_right _ _

theorem maxJ_le (m : Nat) (g : Nat → Int) (c : Int) (hc : 0 ≤ c)
    (h : ∀ j, 1 ≤ j → j ≤ m → g j ≤ c) : maxJ m g ≤ c := by
  induction m with
  | zero => exact hc
  | succ m ih =>
      rw [maxJ_succ]
      exact max_le (ih fun j h1 h2 => h j h1 (by omega)) (h (m + 1) (by omega) (le_refl _))

theorem maxJ_congr (m : Nat) (f g : Nat → Int) (h : ∀ j, 1 ≤ j → j ≤ m → f j = g j) :
    maxJ m f = maxJ m g := by
  induction m with
  | zero => rfl
  | succ m ih =>
      rw [maxJ_succ, maxJ_succ, ih fun j h1 h2 => h j h1 (by omega),
        h (m + 1) (by omega) (le_refl _)]

theorem maxJ_eq_last (m : Nat) (g : Nat → Int) (hm : 1 ≤ m)
    (hmono : ∀ j, 1 ≤ j → j < m → g j ≤ g (j + 1))
    (hpos : ∀ j, 1 ≤ j → j ≤ m → 0 ≤ g j) : maxJ m g = g m := by
  induction m with
  | zero => omega
  | succ m ih =>
      rw [maxJ_succ]
      rcases Nat.eq_zero_or_pos m with h | h
      · subst h
        show max (maxJ 0 g) (g 1) = g 1
        rw [maxJ_zero]
        exact max_eq_right (hpos 1 (le_refl _) (le_refl _))
      · rw [ih h (fun j h1 h2 => hmono j h1 (by omega)) (fun j h1 h2 => hpos j h1 (by omega))]
        exact max_eq_right (hmono m h (by omega))

theorem ectRow_nonneg (prev r : Nat → Int) (hr : ∀ c, 0 ≤ r c) (hprev : ∀ c, 0 ≤ prev c) :
    ∀ j, 0 ≤ ectRow prev r j := by
  intro j
  induction j with
  | zero => exact le_refl 0
  | succ j ih =>
      show 0 ≤ max (prev (j + 1)) (ectRow prev r j) + r j
      exact add_nonneg (le_trans (hprev (j + 1)) (le_max_left _ _)) (hr j)

theorem foldl_ectRow_nonneg (p : Nat → Nat → Int) (hp : ∀ a c, 0 ≤ p a c) :
    ∀ (l : List Nat) (g : Nat → Int), (∀ c, 0 ≤ g c) →
      ∀ j, 0 ≤ (l.foldl (fun prev x => ectRow prev (p (x - 1))) g) j := by
  intro l
  induction l with
  | nil => intro g hg; exact hg
  | cons x xs ih =>
      intro g hg
      exact ih _ (ectRow_nonneg g (p (x - 1)) (fun c => hp (x - 1) c) hg)

theorem ect_nonneg (p : Nat → Nat → Int) (l : List Nat) (hp : ∀ a c, 0 ≤ p a c)
    (i j : Nat) : 0 ≤ ect p l i j :=
  foldl_ectRow_nonneg p hp (l.take i) _ (fun _ => le_refl 0) j

theorem qrowF_nonneg (next r : Nat → Int) (hnext : ∀ c, 0 ≤ next c) (hr : ∀ c, 0 ≤ r c) :
    ∀ k j, 0 ≤ qrowF next r k j := by
  intro k
  induction k with
  | zero => intro j; exact le_refl 0
  | succ k ih =>
      intro j
      show 0 ≤ max (qrowF next r k (j + 1)) (next j) + r (j - 1)
      exact add_nonneg (le_trans (hnext j) (le_max_right _ _)) (hr (j - 1))

theorem qtail_nonneg (p : Nat → Nat → Int) (m : Nat) (hp : ∀ a c, 0 ≤ p a c) :
    ∀ (l : List Nat) (j : Nat), 0 ≤ qtail p m l j := by
  intro l
  induction l with
  | nil => intro j; exact le_refl 0
  | cons x xs ih =>
      intro j
      exact qrowF_nonneg _ _ ih (fun c => hp (x - 1) c) _ j

theorem fins_nonneg (p : Nat → Nat → Int) (seq : List Nat) (job i : Nat)
    (hp : ∀ a c, 0 ≤ p a c) : ∀ j, 0 ≤ fins p seq job i j := by
  intro j
  induction j with
  | zero => exact le_refl 0
  | succ j ih =>
      rw [fins_succ]
      exact add_nonneg (le_trans ih (le_max_left _ _)) (hp (job - 1) j)

theorem ectRow_mono (prev r : Nat → Int) (hr : ∀ c, 0 ≤ r c) (j : Nat) :
    ectRow prev r j ≤ ectRow prev r (j + 1) := by
  show ectRow prev r j ≤ max (prev (j + 1)) (ectRow prev r j) + r j
  exact le_trans (le_max_right _ _) (le_add_of_nonneg_right (hr j))

theorem foldl_ectRow_mono (p : Nat → Nat → Int) (hp : ∀ a c, 0 ≤ p a c) :
    ∀ (l : List Nat) (g : Nat → Int), (∀ c, g c ≤ g (c + 1)) →
      ∀ j, (l.foldl (fun prev x => ectRow prev (p (x - 1))) g) j
        ≤ (l.foldl (fun prev x => ectRow prev (p (x - 1))) g) (j + 1) := by
  intro l
  induction l with
  | nil => intro g hg; exact hg
  | cons x xs ih =>
      intro g _
      exact ih _ (ectRow_mono g (p (x - 1)) (fun c => hp (x - 1) c))

theorem ect_mono_col (p : Nat → Nat → Int) (l : List Nat) (hp : ∀ a c, 0 ≤ p a c)
    (i j : Nat) : ect p l i j ≤ ect p l i (j + 1) :=
  foldl_ectRow_mono p hp (l.take i) _ (fun _ => le_refl 0) j

theorem ect_mono_col_le (p : Nat → Nat → Int) (l : List Nat) (hp : ∀ a c, 0 ≤ p a c)
    (i : Nat) {j j' : Nat} (h : j ≤ j') : ect p l i j ≤ ect p l i j' := by
  induction j', h using Nat.le_induction with
  | base => exact le_refl _
  | succ j' hj ih => exact le_trans ih (ect_mono_col p l hp i j')

theorem ect_mono_row (p : Nat → Nat → Int) (l : List Nat) (hp : ∀ a c, 0 ≤ p a c)
    (i : Nat) (h : i < l.length) (j : Nat) : ect p l i j ≤ ect p l (i + 1) j := by
  cases j with
  | zero => rw [ect_col0, ect_col0]
  | succ j =>
      rw [ect_succ p l i h j]
      exact le_trans (le_max_left _ _) (le_add_of_nonneg_right (hp _ j))

theorem ect_mono_row_le (p : Nat → Nat → Int) (l : List Nat) (hp : ∀ a c, 0 ≤ p a c)
    {i i' : Nat} (h : i ≤ i') (hl : i' ≤ l.length) (j : Nat) :
    ect p l i j ≤ ect p l i' j := by
  induction i', h using Nat.le_induction with
  | base => exact le_refl _
  | succ i' hi ih =>
      exact le_trans (ih (by omega)) (ect_mono_row p l hp i' (by omega) j)

theorem ect_ge_entry (p : Nat → Nat → Int) (l : List Nat) (hp : ∀ a c, 0 ≤ p a c)
    {t i c j : Nat} (ht : 1 ≤ t) (hti : t ≤ i) (hil : i ≤ l.length)
    (hc : 1 ≤ c) (hcj : c ≤ j) :
    p (l.getD (t - 1) 0 - 1) (c - 1) ≤ ect p l i j := by
  have h1 : t - 1 < l.length := by omega
  have h2 : p (l.getD (t - 1) 0 - 1) (c - 1) ≤ ect p l t c := by
    have := ect_succ p l (t - 1) h1 (c - 1)
    rw [show t - 1 + 1 = t from by omega, show c - 1 + 1 = c from by omega] at this
    rw [this]
    have hmax : (0 : Int) ≤ max (ect p l (t - 1) c) (ect p l t (c - 1)) :=
      le_trans (ect_nonneg p l hp (t - 1) c) (le_max_left _ _)
    exact le_add_of_nonneg_left hmax
  exact le_trans h2 (le_trans (ect_mono_row_le p l hp hti hil c)
    (ect_mono_col_le p l hp i hcj))

theorem qtail_step (p : Nat → Nat → Int) (m : Nat) (hp : ∀ a c, 0 ≤ p a c)
    (l : List Nat) (j : Nat) : qtail p m l (j + 1) ≤ qtail p m l j := by
  rcases Nat.lt_or_ge m j with h | h
  · rw [qtail_hi p m l (j + 1) (by omega), qtail_hi p m l j (by omega)]
  · cases l with
    | nil => exact le_refl 0
    | cons x xs =>
        rw [qtail_cons p m x xs j h]
        exact le_trans (le_max_left _ _) (le_add_of_nonneg_right (hp (x - 1) (j - 1)))

theorem qtail_anti (p : Nat → Nat → Int) (m : Nat) (hp : ∀ a c, 0 ≤ p a c)
    (l : List Nat) {j j' : Nat} (h : j ≤ j') : qtail p m l j' ≤ qtail p m l j := by
  induction j', h using Nat.le_induction with
  | base => exact le_refl _
  | succ j' hj ih => exact le_trans (qtail_step p m hp l j') ih

theorem qtail_ge_entry (p : Nat → Nat → Int) (m : Nat) (hp : ∀ a c, 0 ≤ p a c)
    {l : List Nat} {y c j : Nat} (hy : y ∈ l) (hc : 1 ≤ c) (hcm : c ≤ m)
    (hjc : j ≤ c) : p (y - 1) (c - 1) ≤ qtail p m l j := by
  induction l with
  | nil => cases hy
  | cons x xs ih =>
      rcases List.mem_cons.mp hy with h | h
      · subst h
        have h1 : p (y - 1) (c - 1) ≤ qtail p m (y :: xs) c := by
          rw [qtail_cons p m y xs c hcm]
          have hmax : (0 : Int) ≤ max (qtail p m (y :: xs) (c + 1)) (qtail p m xs c) :=
            le_trans (qtail_nonneg p m hp (y :: xs) (c + 1)) (le_max_left _ _)
          exact le_add_of_nonneg_left hmax
        exact le_trans h1 (qtail_anti p m hp (y :: xs) hjc)
      · have h1 : qtail p m xs j ≤ qtail p m (x :: xs) j := by
          rcases Nat.lt_or_ge m j with hm | hm
          · rw [qtail_hi p m xs j (by omega), qtail_hi p m (x :: xs) j (by omega)]
          · rw [qtail_cons p m x xs j hm]
            exact le_trans (le_max_right _ _) (le_add_of_nonneg_right (hp (x - 1) (j - 1)))
        exact le_trans (ih h) h1

theorem exchange (m : Nat) (E Q r Ep Qp : Nat → Int)
    (hEp0 : Ep 0 = 0)
    (hQphi : ∀ j, m + 1 ≤ j → Qp j = 0)
    (hEp : ∀ j, 1 ≤ j → j ≤ m → Ep j = max (E j) (Ep (j - 1)) + r j)
    (hQp : ∀ j, 1 ≤ j → j ≤ m → Qp j = max (Qp (j + 1)) (Q j) + r j)
    (hE : ∀ j, 0 ≤ E j) (hQ : ∀ j, 0 ≤ Q j) (hr : ∀ j, 0 ≤ r j) :
    maxJ m (fun j => Ep j + Q j) = maxJ m (fun j => E j + Qp j) := by
  rcases Nat.eq_zero_or_pos m with hm | hm
  · subst hm; rfl
  have hQge1 : ∀ j, 1 ≤ j → j ≤ m → Q j + r j ≤ Qp j := by
    intro j h1 h2
    rw [hQp j h1 h2]
    exact add_le_add_right (le_max_right _ _) _
  have hQge2 : ∀ j, 1 ≤ j → j ≤ m → Qp (j + 1) + r j ≤ Qp j := by
    intro j h1 h2
    rw [hQp j h1 h2]
    have := le_max_left (Qp (j + 1)) (Q j)
    linarith
  have hEge1 : ∀ j, 1 ≤ j → j ≤ m → E j + r j ≤ Ep j := by
    intro j h1 h2
    rw [hEp j h1 h2]
    exact add_le_add_right (le_max_left _ _) _
  have hEge2 : ∀ j, 1 ≤ j → j ≤ m → Ep (j - 1) + r j ≤ Ep j := by
    intro j h1 h2
    rw [hEp j h1 h2]
    exact add_le_add_right (le_max_right _ _) _
  have hC : ∀ j, 1 ≤ j → j ≤ m + 1 → Ep (j - 1) + Qp j ≤ maxJ m (fun t => E t + Qp t) := by
    intro j
    induction j with
    | zero => omega
    | succ j ih =>
        intro _ h2
        rcases Nat.eq_zero_or_pos j with hj0 | hj0
        · subst hj0
          show Ep 0 + Qp 1 ≤ _
          rw [hEp0, zero_add]
          have h3 : Qp 1 ≤ E 1 + Qp 1 := le_add_of_nonneg_left (hE 1)
          have h4 : E 1 + Qp 1 ≤ maxJ m (fun t => E t + Qp t) :=
            le_maxJ m _ 1 (le_refl _) hm
          linarith
        · have hjm : j ≤ m := by omega
          have ih2 := ih hj0 (by omega)
          rw [show j + 1 - 1 = j from rfl, hEp j hj0 hjm]
          have h6 := hQge2 j hj0 hjm
          rcases max_cases (E j) (Ep (j - 1)) with ⟨h5, _⟩ | ⟨h5, _⟩ <;> rw [h5]
          · have h7 : E j + Qp j ≤ maxJ m (fun t => E t + Qp t) :=
              le_maxJ m _ j hj0 hjm
            linarith
          · linarith
  have hB : ∀ j, 1 ≤ j → j ≤ m → Ep j + Q j ≤ maxJ m (fun t => E t + Qp t) := by
    intro j h1 h2
    rw [hEp j h1 h2]
    have h6 := hQge1 j h1 h2
    rcases max_cases (E j) (Ep (j - 1)) with ⟨h5, _⟩ | ⟨h5, _⟩ <;> rw [h5]
    · have h7 : E j + Qp j ≤ maxJ m (fun t => E t + Qp t) := le_maxJ m _ j h1 h2
      linarith
    · have h7 := hC j h1 (by omega)
      linarith
  have hLR : maxJ m (fun j => Ep j + Q j) ≤ maxJ m (fun t => E t + Qp t) :=
    maxJ_le _ _ _ (maxJ_nonneg _ _) hB
  have hD : ∀ d j, j + d = m + 1 → 1 ≤ j →
      Ep (j - 1) + Qp j ≤ maxJ m (fun t => Ep t + Q t) := by
    intro d
    induction d with
    | zero =>
        intro j hj h1
        have hjm : j = m + 1 := by omega
        subst hjm
        rw [hQphi (m + 1) (le_refl _), add_zero, show m + 1 - 1 = m from rfl]
        have h3 : Ep m ≤ Ep m + Q m := le_add_of_nonneg_right (hQ m)
        have h4 : Ep m + Q m ≤ maxJ m (fun t => Ep t + Q t) :=
          le_maxJ m _ m hm (le_refl _)
        linarith
    | succ d ih =>
        intro j hj h1
        have hjm : j ≤ m := by omega
        rw [hQp j h1 hjm]
        have h6 := hEge2 j h1 hjm
        rcases max_cases (Qp (j + 1)) (Q j) with ⟨h5, _⟩ | ⟨h5, _⟩ <;> rw [h5]
        · have h7 := ih (j + 1) (by omega) (by omega)
          rw [show j + 1 - 1 = j from rfl] at h7
          linarith
        · have h7 : Ep j + Q j ≤ maxJ m (fun t => Ep t + Q t) := le_maxJ m _ j h1 hjm
          linarith
  have hB2 : ∀ j, 1 ≤ j → j ≤ m → E j + Qp j ≤ maxJ m (fun t => Ep t + Q t) := by
    intro j h1 h2
    rw [hQp j h1 h2]
    have h6 := hEge1 j h1 h2
    rcases max_cases (Qp (j + 1)) (Q j) with ⟨h5, _⟩ | ⟨h5, _⟩ <;> rw [h5]
    · have h7 := hD (m - j) (j + 1) (by omega) (by omega)
      rw [show j + 1 - 1 = j from rfl] at h7
      linarith
    · have h7 : Ep j + Q j ≤ maxJ m (fun t => Ep t + Q t) := le_maxJ m _ j h1 h2
      linarith
  have hRL : maxJ m (fun j => E j + Qp j) ≤ maxJ m (fun t => Ep t + Q t) :=
    maxJ_le _ _ _ (maxJ_nonneg _ _) hB2
  exact le_antisymm hLR hRL

theorem qtail_nil_app (p : Nat → Nat → Int) (m j : Nat) : qtail p m [] j = 0 := rfl

theorem cross (p : Nat → Nat → Int) (l : List Nat) (m : Nat) (hp : ∀ a c, 0 ≤ p a c) :
    ∀ d k, k + d = l.length → 1 ≤ k →
      ect p l l.length m = maxJ m (fun j => ect p l k j + qtail p m (l.drop k) j) := by
  intro d
  induction d with
  | zero =>
      intro k hk _
      have hkl : k = l.length := by omega
      subst hkl
      rw [List.drop_length]
      rcases Nat.eq_zero_or_pos m with hm | hm
      · subst hm
        rw [maxJ_zero, ect_col0]
      · rw [maxJ_congr m _ (fun j => ect p l l.length j)
          (by intro j _ _; rw [qtail_nil_app, add_zero])]
        rw [maxJ_eq_last m _ hm (fun j _ _ => ect_mono_col p l hp _ j)
          (fun j _ _ => ect_nonneg p l hp _ j)]
  | succ d ih =>
      intro k hk h1
      have hkN : k < l.length := by omega
      have hdrop : l.drop k = l.getD k 0 :: l.drop (k + 1) := by
        rw [List.drop_eq_getElem_cons hkN, getD_eq_getElem l k hkN]
      rw [ih (k + 1) (by omega) (by omega)]
      refine exchange m (fun j => ect p l k j) (fun j => qtail p m (l.drop (k + 1)) j)
        (fun j => p (l.getD k 0 - 1) (j - 1)) (fun j => ect p l (k + 1) j)
        (fun j => qtail p m (l.drop k) j) (ect_col0 p l (k + 1)) ?_ ?_ ?_
        (fun j => ect_nonneg p l hp k j) (fun j => qtail_nonneg p m hp _ j)
        (fun j => hp _ _)
      · intro j hj
        exact qtail_hi p m _ j hj
      · intro j hj1 hj2
        have h2 := ect_succ p l k hkN (j - 1)
        rw [show j - 1 + 1 = j from by omega] at h2
        exact h2
      · intro j hj1 hj2
        rw [hdrop]
        exact qtail_cons p m _ _ j hj2

theorem insertAt_length (seq : List Nat) (i job : Nat) (hi : 1 ≤ i)
    (h : i ≤ seq.length + 1) : (insertAt seq i job).length = seq.length + 1 := by
  unfold insertAt
  rw [List.length_append, List.length_take, List.length_cons, List.length_drop]
  omega

theorem insertAt_take (seq : List Nat) (i job : Nat) (h : i - 1 ≤ seq.length) :
    (insertAt seq i job).take (i - 1) = seq.take (i - 1) := by
  unfold insertAt
  rw [List.take_append_of_le_length (by rw [List.length_take]; omega)]
  rw [List.take_take, min_self]

theorem insertAt_getD (seq : List Nat) (i job : Nat) (h : i - 1 ≤ seq.length) :
    (insertAt seq i job).getD (i - 1) 0 = job := by
  unfold insertAt
  have hl : (seq.take (i - 1)).length = i - 1 := by rw [List.length_take]; omega
  rw [List.getD_append_right _ _ _ _ (by rw [hl]), hl, Nat.sub_self]
  rfl

theorem insertAt_drop (seq : List Nat) (i job : Nat) (hi : 1 ≤ i)
    (h : i - 1 ≤ seq.length) : (insertAt seq i job).drop i = seq.drop (i - 1) := by
  unfold insertAt
  have hl : (seq.take (i - 1)).length = i - 1 := by rw [List.length_take]; omega
  set l1 := seq.take (i - 1) with hl1
  rw [show i = l1.length + 1 from by omega, List.drop_append]
  rfl

theorem insertAt_mem (seq : List Nat) (i job x : Nat)
    (h : x ∈ insertAt seq i job) : x ∈ seq ∨ x = job := by
  unfold insertAt at h
  rcases List.mem_append.mp h with h | h
  · exact Or.inl (List.take_subset _ _ h)
  · rcases List.mem_cons.mp h with h | h
    · exact Or.inr h
    · exact Or.inl (List.drop_subset _ _ h)

theorem ect_insertAt_left (p : Nat → Nat → Int) (seq : List Nat) (i job : Nat)
    (h : i - 1 ≤ seq.length) :
    ect p (insertAt seq i job) (i - 1) = ect p seq (i - 1) := by
  unfold ect
  rw [insertAt_take seq i job h]

theorem fins_eq_ect (p : Nat → Nat → Int) (seq : List Nat) (job i : Nat)
    (hi : 1 ≤ i) (h : i ≤ seq.length + 1) (j : Nat) :
    fins p seq job i j = ect p (insertAt seq i job) i j := by
  induction j with
  | zero => rw [fins_zero_col, ect_col0]
  | succ j ih =>
      rw [fins_succ]
      have hlen : i - 1 < (insertAt seq i job).length := by
        rw [insertAt_length seq i job hi h]; omega
      have h2 := ect_succ p (insertAt seq i job) (i - 1) hlen j
      rw [show i - 1 + 1 = i from by omega] at h2
      rw [h2, insertAt_getD seq i job (by omega), ih,
        ect_insertAt_left p seq i job (by omega), max_comm]

theorem cctStep_inv (seq : List Nat) (p : Nat → Nat → Int) (m i j0 : Nat)
    (h1 : 1 ≤ i) (h2 : i ≤ seq.length) (hj : j0 < m) (t : Nat → Nat → Int)
    (ht : ∀ a b, t a b = if (a < i ∧ b ≤ m) ∨ (a = i ∧ b ≤ j0) then ect p seq a b else 0) :
    ∀ a b, cctStep seq p i (j0 + 1) t a b
      = if (a < i ∧ b ≤ m) ∨ (a = i ∧ b ≤ j0 + 1) then ect p seq a b else 0 := by
  have he1 : ∀ a b, (if i = 1 then upd2 t 0 (j0 + 1) 0 else t) a b
      = if (a < i ∧ b ≤ m) ∨ (a = i ∧ b ≤ j0) then ect p seq a b else 0 := by
    intro a b
    by_cases hi : i = 1
    · rw [if_pos hi]
      show (if a = 0 ∧ b = j0 + 1 then (0 : Int) else t a b) = _
      by_cases hab : a = 0 ∧ b = j0 + 1
      · rw [if_pos hab]
        obtain ⟨ha, hb⟩ := hab
        subst ha; subst hb
        rw [if_pos (Or.inl ⟨by omega, by omega⟩), ect_row0]
      · rw [if_neg hab, ht a b]
    · rw [if_neg hi]
      exact ht a b
  intro a b
  show (if a = i ∧ b = j0 + 1 then _ else (if i = 1 then upd2 t 0 (j0 + 1) 0 else t) a b) = _
  by_cases hab : a = i ∧ b = j0 + 1
  · rw [if_pos hab]
    obtain ⟨ha, hb⟩ := hab
    subst ha; subst hb
    rw [if_pos (Or.inr ⟨rfl, le_refl _⟩)]
    rw [he1 (a - 1) (j0 + 1), he1 a (j0 + 1 - 1)]
    rw [if_pos (Or.inl ⟨by omega, by omega⟩)]
    rw [if_pos (Or.inr ⟨rfl, by omega⟩)]
    have h3 := ect_succ p seq (a - 1) (by omega) j0
    rw [show a - 1 + 1 = a from by omega] at h3
    rw [show j0 + 1 - 1 = j0 from rfl]
    exact h3.symm
  · rw [if_neg hab, he1 a b]
    by_cases hcv : (a < i ∧ b ≤ m) ∨ (a = i ∧ b ≤ j0)
    · rw [if_pos hcv, if_pos (by omega)]
    · rw [if_neg hcv, if_neg (by omega)]

theorem cct_row (seq : List Nat) (p : Nat → Nat → Int) (m i : Nat)
    (h1 : 1 ≤ i) (h2 : i ≤ seq.length) :
    ∀ j0, j0 ≤ m → ∀ t : Nat → Nat → Int,
      (∀ a b, t a b = if (a < i ∧ b ≤ m) ∨ (a = i ∧ b = 0) then ect p seq a b else 0) →
      ∀ a b, ((List.range j0).foldl (fun e jx => cctStep seq p i (jx + 1) e) t) a b
        = if (a < i ∧ b ≤ m) ∨ (a = i ∧ b ≤ j0) then ect p seq a b else 0 := by
  intro j0
  induction j0 with
  | zero =>
      intro _ t ht a b
      rw [List.range_zero]
      show t a b = _
      rw [ht a b]
      by_cases hcv : (a < i ∧ b ≤ m) ∨ (a = i ∧ b = 0)
      · rw [if_pos hcv, if_pos (by omega)]
      · rw [if_neg hcv, if_neg (by omega)]
  | succ j0 ih =>
      intro hj t ht a b
      rw [List.range_succ, List.foldl_append]
      exact cctStep_inv seq p m i j0 h1 h2 (by omega) _
        (ih (by omega) t ht) a b

theorem cctE_partial (seq : List Nat) (p : Nat → Nat → Int) (m : Nat) :
    ∀ i0, i0 ≤ seq.length → ∀ a b,
      ((List.range i0).foldl
        (fun e ix =>
          (List.range m).foldl (fun e j0 => cctStep seq p (ix + 1) (j0 + 1) e)
            (upd2 e (ix + 1) 0 0))
        (fun _ _ => 0)) a b
      = if a ≤ i0 ∧ b ≤ m then ect p seq a b else 0 := by
  intro i0
  induction i0 with
  | zero =>
      intro _ a b
      rw [List.range_zero]
      show (0 : Int) = _
      by_cases hcv : a ≤ 0 ∧ b ≤ m
      · rw [if_pos hcv]
        rw [show a = 0 from by omega, ect_row0]
      · rw [if_neg hcv]
  | succ i0 ih =>
      intro hi a b
      rw [List.range_succ, List.foldl_append]
      have hrow := cct_row seq p m (i0 + 1) (by omega) hi m (le_refl m)
        (upd2 ((List.range i0).foldl
          (fun e ix =>
            (List.range m).foldl (fun e j0 => cctStep seq p (ix + 1) (j0 + 1) e)
              (upd2 e (ix + 1) 0 0))
          (fun _ _ => 0)) (i0 + 1) 0 0)
        (by
          intro a b
          show (if a = i0 + 1 ∧ b = 0 then (0 : Int) else _) = _
          by_cases hab : a = i0 + 1 ∧ b = 0
          · rw [if_pos hab]
            obtain ⟨ha, hb⟩ := hab
            subst ha; subst hb
            rw [if_pos (Or.inr ⟨rfl, rfl⟩), ect_col0]
          · rw [if_neg hab, ih (by omega) a b]
            by_cases hcv : a ≤ i0 ∧ b ≤ m
            · rw [if_pos hcv, if_pos (by omega)]
            · rw [if_neg hcv, if_neg (by omega)])
      simp only [List.foldl_cons, List.foldl_nil]
      rw [hrow a b]
      by_cases hcv : a ≤ i0 + 1 ∧ b ≤ m
      · rw [if_pos (by omega), if_pos hcv]
      · rw [if_neg (by omega), if_neg hcv]

theorem cctE_spec (seq : List Nat) (p : Nat → Nat → Int) (m : Nat) (a b : Nat)
    (ha : a ≤ seq.length) (hb : b ≤ m) : cctE seq p m a b = ect p seq a b := by
  have h := cctE_partial seq p m seq.length (le_refl _) a b
  rw [if_pos ⟨ha, hb⟩] at h
  exact h

theorem cct_scalar_eq (seq : List Nat) (p : Nat → Nat → Int) (m : Nat) :
    calculate_completion_times_scalar seq p m = ect p seq seq.length m :=
  cctE_spec seq p m seq.length m (le_refl _) (le_refl _)

theorem ectRow_zero_of (g r : Nat → Int) (m : Nat) (hg : ∀ c, c ≤ m → g c = 0)
    (hr : ∀ c, c < m → r c = 0) : ∀ j, j ≤ m → ectRow g r j = 0 := by
  intro j
  induction j with
  | zero => intro _; rfl
  | succ j ih =>
      intro h
      show max (g (j + 1)) (ectRow g r j) + r j = 0
      rw [hg (j + 1) h, ih (by omega), hr j (by omega)]
      simp

theorem foldl_ectRow_zero (p : Nat → Nat → Int) (m : Nat) :
    ∀ (l : List Nat) (g : Nat → Int), (∀ x ∈ l, ∀ c, c < m → p (x - 1) c = 0) →
      (∀ c, c ≤ m → g c = 0) → ∀ j, j ≤ m →
      (l.foldl (fun prev x => ectRow prev (p (x - 1))) g) j = 0 := by
  intro l
  induction l with
  | nil => intro g _ hg j hj; exact hg j hj
  | cons x xs ih =>
      intro g hl hg j hj
      exact ih _ (fun y hy => hl y (List.mem_cons_of_mem x hy))
        (ectRow_zero_of g (p (x - 1)) m hg (hl x (List.mem_cons_self x xs)))
        j hj

theorem ect_zero_of (p : Nat → Nat → Int) (m : Nat) (l : List Nat)
    (h : ∀ x ∈ l, ∀ c, c < m → p (x - 1) c = 0) (i j : Nat) (hj : j ≤ m) :
    ect p l i j = 0 :=
  foldl_ectRow_zero p m (l.take i) _
    (fun y hy => h y (List.take_subset i l hy)) (fun _ _ => rfl) j hj

theorem qtail_zero_of (p : Nat → Nat → Int) (m : Nat) :
    ∀ (l : List Nat), (∀ x ∈ l, ∀ c, c < m → p (x - 1) c = 0) →
      ∀ j, 1 ≤ j → qtail p m l j = 0 := by
  intro l
  induction l with
  | nil => intro _ j _; rfl
  | cons x xs ih =>
      intro hl
      have key : ∀ k j, m + 1 - j ≤ k → 1 ≤ j → qtail p m (x :: xs) j = 0 := by
        intro k
        induction k with
        | zero => intro j hk h1; exact qtail_hi p m _ j (by omega)
        | succ k ihk =>
            intro j hk h1
            rcases Nat.lt_or_ge m j with hm | hm
            · exact qtail_hi p m _ j (by omega)
            · rw [qtail_cons p m x xs j hm]
              rw [ihk (j + 1) (by omega) (by omega)]
              rw [ih (fun y hy => hl y (List.mem_cons_of_mem x hy)) j h1]
              rw [hl x (List.mem_cons_self x xs) (j - 1) (by omega)]
              simp
      intro j h1
      exact key (m + 1 - j) j (le_refl _) h1

theorem fins_zero_of (p : Nat → Nat → Int) (m : Nat) (seq : List Nat) (job i : Nat)
    (hj : ∀ c, c < m → p (job - 1) c = 0)
    (hseq : ∀ x ∈ seq, ∀ c, c < m → p (x - 1) c = 0) :
    ∀ j, j ≤ m → fins p seq job i j = 0 := by
  intro j
  induction j with
  | zero => intro _; rfl
  | succ j ih =>
      intro h
      rw [fins_succ, ih (by omega), ect_zero_of p m seq hseq (i - 1) (j + 1) h,
        hj j (by omega)]
      simp

theorem mainB1_f (n m i j : Nat) (s : TScr) : (mainB1 n m i j s).f = s.f := by
  unfold mainB1
  split <;> rfl

theorem mainB2_f (n m : Nat) (seq : List Nat) (p : Nat → Nat → Int) (i j : Nat)
    (s : TScr) : (mainB2 n m seq p i j s).f = s.f := by
  unfold mainB2
  split <;> rfl

theorem mainB3_e (p : Nat → Nat → Int) (job i j : Nat) (s : TScr) :
    (mainB3 p job i j s).e = s.e := rfl

theorem mainB3_q (p : Nat → Nat → Int) (job i j : Nat) (s : TScr) :
    (mainB3 p job i j s).q = s.q := rfl

theorem mainB1_e (seq : List Nat) (p : Nat → Nat → Int) (m i j0 : Nat) (s : TScr)
    (hjm : j0 + 1 ≤ m)
    (he : ∀ a b, eCov seq.length m i j0 a b → s.e a b = ect p seq a b) :
    ∀ a b, eCov seq.length m i j0 a b ∨ (i = 1 ∧ a = 0 ∧ b = j0 + 1) →
      (mainB1 seq.length m i (j0 + 1) s).e a b = ect p seq a b := by
  intro a b hab
  unfold mainB1
  by_cases hi : i = 1
  · rw [if_pos hi]
    show upd2 s.e 0 (j0 + 1) 0 a b = _
    simp only [upd2]
    by_cases hab2 : a = 0 ∧ b = j0 + 1
    · rw [if_pos hab2]
      obtain ⟨h1, h2⟩ := hab2
      subst h1; subst h2
      exact (ect_row0 p seq (j0 + 1)).symm
    · rw [if_neg hab2]
      apply he
      rcases hab with h | h
      · exact h
      · exact absurd ⟨h.2.1, h.2.2⟩ hab2
  · rw [if_neg hi]
    apply he
    rcases hab with h | h
    · exact h
    · exact absurd h.1 hi

theorem mainB1_q (seq : List Nat) (p : Nat → Nat → Int) (m i j0 : Nat) (s : TScr)
    (hjm : j0 + 1 ≤ m)
    (hq : ∀ a b, qCov seq.length m i j0 a b → s.q a b = qtail p m (seq.drop (a - 1)) b) :
    ∀ a b, qCov seq.length m i j0 a b ∨ (i = 1 ∧ a = seq.length + 1 ∧ b = m - j0) →
      (mainB1 seq.length m i (j0 + 1) s).q a b = qtail p m (seq.drop (a - 1)) b := by
  intro a b hab
  unfold mainB1
  by_cases hi : i = 1
  · rw [if_pos hi]
    show upd2 s.q (seq.length + 1) (m + 1 - (j0 + 1)) 0 a b = _
    simp only [upd2]
    by_cases hab2 : a = seq.length + 1 ∧ b = m + 1 - (j0 + 1)
    · rw [if_pos hab2]
      obtain ⟨h1, h2⟩ := hab2
      subst h1; subst h2
      rw [show seq.length + 1 - 1 = seq.length from by omega, List.drop_length,
        qtail_nil_app]
    · rw [if_neg hab2]
      apply hq
      rcases hab with h | h
      · exact h
      · exact absurd ⟨h.2.1, by omega⟩ hab2
  · rw [if_neg hi]
    apply hq
    rcases hab with h | h
    · exact h
    · exact absurd h.1 hi

theorem mainB2_e (seq : List Nat) (p : Nat → Nat → Int) (m i j0 : Nat) (s : TScr)
    (hi1 : 1 ≤ i) (hjm : j0 + 1 ≤ m)
    (he : ∀ a b, eCov seq.length m i j0 a b ∨ (i = 1 ∧ a = 0 ∧ b = j0 + 1) →
      s.e a b = ect p seq a b) :
    ∀ a b, eCov seq.length m i (j0 + 1) a b →
      (mainB2 seq.length m seq p i (j0 + 1) s).e a b = ect p seq a b := by
  intro a b hab
  unfold mainB2
  by_cases hlt : i < seq.length + 1
  · rw [if_pos hlt]
    show upd2 s.e i (j0 + 1)
      (max (s.e i (j0 + 1 - 1)) (s.e (i - 1) (j0 + 1)) + p (seq.getD (i - 1) 0 - 1) (j0 + 1 - 1))
      a b = _
    simp only [upd2]
    by_cases hab2 : a = i ∧ b = j0 + 1
    · rw [if_pos hab2]
      obtain ⟨h1, h2⟩ := hab2
      subst h1; subst h2
      rw [show j0 + 1 - 1 = j0 from rfl]
      rw [he a j0 (by unfold eCov; omega)]
      rw [he (a - 1) (j0 + 1) (by unfold eCov; omega)]
      have h3 := ect_succ p seq (a - 1) (by omega) j0
      rw [show a - 1 + 1 = a from by omega] at h3
      rw [max_comm]
      exact h3.symm
    · rw [if_neg hab2]
      apply he
      unfold eCov at hab ⊢
      omega
  · rw [if_neg hlt]
    apply he
    unfold eCov at hab ⊢
    omega

theorem mainB2_q (seq : List Nat) (p : Nat → Nat → Int) (m i j0 : Nat) (s : TScr)
    (hi1 : 1 ≤ i) (hjm : j0 + 1 ≤ m)
    (hq : ∀ a b, qCov seq.length m i j0 a b ∨ (i = 1 ∧ a = seq.length + 1 ∧ b = m - j0) →
      s.q a b = qtail p m (seq.drop (a - 1)) b) :
    ∀ a b, qCov seq.length m i (j0 + 1) a b →
      (mainB2 seq.length m seq p i (j0 + 1) s).q a b = qtail p m (seq.drop (a - 1)) b := by
  intro a b hab
  unfold mainB2
  by_cases hlt : i < seq.length + 1
  · rw [if_pos hlt]
    show upd2 s.q (seq.length + 1 - i) (m + 1 - (j0 + 1))
      (max (s.q (seq.length + 1 - i) (m + 1 - (j0 + 1) + 1))
          (s.q (seq.length + 1 - i + 1) (m + 1 - (j0 + 1)))
        + p (seq.getD (seq.length + 1 - i - 1) 0 - 1) (m + 1 - (j0 + 1) - 1))
      a b = _
    simp only [upd2]
    by_cases hab2 : a = seq.length + 1 - i ∧ b = m + 1 - (j0 + 1)
    · rw [if_pos hab2]
      obtain ⟨h1, h2⟩ := hab2
      subst h1; subst h2
      have e1 : s.q (seq.length + 1 - i) (m + 1 - (j0 + 1) + 1)
          = qtail p m (seq.drop (seq.length + 1 - i - 1)) (m + 1 - (j0 + 1) + 1) :=
        hq _ _ (by unfold qCov; omega)
      have e2 : s.q (seq.length + 1 - i + 1) (m + 1 - (j0 + 1))
          = qtail p m (seq.drop (seq.length + 1 - i + 1 - 1)) (m + 1 - (j0 + 1)) :=
        hq _ _ (by unfold qCov; omega)
      rw [e1, e2]
      rw [show seq.length + 1 - i - 1 = seq.length - i from by omega]
      rw [show seq.length + 1 - i + 1 - 1 = seq.length - i + 1 from by omega]
      rw [show m + 1 - (j0 + 1) = m - j0 from by omega]
      have hlen : seq.length - i < seq.length := by omega
      have hdrop : seq.drop (seq.length - i)
          = seq.getD (seq.length - i) 0 :: seq.drop (seq.length - i + 1) := by
        rw [List.drop_eq_getElem_cons hlen, getD_eq_getElem seq _ hlen]
      rw [hdrop]
      rw [qtail_cons p m _ _ (m - j0) (by omega)]
    · rw [if_neg hab2]
      apply hq
      unfold qCov at hab ⊢
      omega
  · rw [if_neg hlt]
    apply hq
    unfold qCov at hab ⊢
    omega

theorem mainB3_f (seq : List Nat) (p : Nat → Nat → Int) (job m i j0 : Nat) (s : TScr)
    (hi1 : 1 ≤ i) (hjm : j0 + 1 ≤ m)
    (hf : ∀ a b, fCov m i j0 a b → s.f a b = fins p seq job a b)
    (hecur : s.e (i - 1) (j0 + 1) = ect p seq (i - 1) (j0 + 1)) :
    ∀ a b, fCov m i (j0 + 1) a b →
      (mainB3 p job i (j0 + 1) s).f a b = fins p seq job a b := by
  intro a b hab
  unfold mainB3
  show upd2 s.f i (j0 + 1)
    (max (s.f i (j0 + 1 - 1)) (s.e (i - 1) (j0 + 1)) + p (job - 1) (j0 + 1 - 1))
    a b = _
  simp only [upd2]
  by_cases hab2 : a = i ∧ b = j0 + 1
  · rw [if_pos hab2]
    obtain ⟨h1, h2⟩ := hab2
    subst h1; subst h2
    rw [show j0 + 1 - 1 = j0 from rfl]
    rw [hf a j0 (by unfold fCov; omega), hecur]
    exact (fins_succ p seq job a j0).symm
  · rw [if_neg hab2]
    apply hf
    unfold fCov at hab ⊢
    omega

theorem mainBody_inv (seq : List Nat) (p : Nat → Nat → Int) (job m i j0 : Nat)
    (s : TScr) (hi1 : 1 ≤ i) (hin : i ≤ seq.length + 1) (hj : j0 < m)
    (h : MInv seq p job m i j0 s) :
    MInv seq p job m i (j0 + 1) (mainBody seq.length m seq p job i (j0 + 1) s) := by
  obtain ⟨he, hq, hf⟩ := h
  have hB1e := mainB1_e seq p m i j0 s (by omega) he
  have hB1q := mainB1_q seq p m i j0 s (by omega) hq
  have hB2e := mainB2_e seq p m i j0 _ hi1 (by omega) hB1e
  have hB2q := mainB2_q seq p m i j0 _ hi1 (by omega) hB1q
  have hB2f : ∀ a b, fCov m i j0 a b →
      (mainB2 seq.length m seq p i (j0 + 1) (mainB1 seq.length m i (j0 + 1) s)).f a b
        = fins p seq job a b := by
    intro a b hab
    rw [mainB2_f, mainB1_f]
    exact hf a b hab
  refine ⟨?_, ?_, ?_⟩
  · intro a b hab
    exact hB2e a b hab
  · intro a b hab
    exact hB2q a b hab
  · exact mainB3_f seq p job m i j0 _ hi1 (by omega) hB2f
      (hB2e (i - 1) (j0 + 1) (by unfold eCov; omega))

theorem outerInit_f (n m i : Nat) (s : TScr) :
    (outerInit n m i s).f = upd2 s.f i 0 0 := by
  unfold outerInit
  split <;> rfl

theorem upd2_same (g : Nat → Nat → Int) (a b : Nat) (v : Int) : upd2 g a b v a b = v := by
  simp [upd2]

theorem upd2_ne (g : Nat → Nat → Int) (a b x y : Nat) (v : Int)
    (h : ¬(x = a ∧ y = b)) : upd2 g a b v x y = g x y := by
  simp only [upd2]
  rw [if_neg h]

theorem upd1_same (g : Nat → Int) (a : Nat) (v : Int) : upd1 g a v a = v := by
  simp [upd1]

theorem upd1_ne (g : Nat → Int) (a x : Nat) (v : Int) (h : ¬x = a) :
    upd1 g a v x = g x := by
  simp only [upd1]
  rw [if_neg h]

theorem outerInit_base (seq : List Nat) (p : Nat → Nat → Int) (job m : Nat) (s : TScr) :
    MInv seq p job m 1 0 (outerInit seq.length m 1 s) := by
  refine ⟨?_, ?_, ?_⟩
  · intro a b hab
    unfold eCov at hab
    have hb : b = 0 ∧ a = 1 ∧ 1 ≤ seq.length := by omega
    obtain ⟨h1, h2, h3⟩ := hb
    subst h1; subst h2
    unfold outerInit
    rw [if_pos (by omega)]
    show upd2 s.e 1 0 0 1 0 = ect p seq 1 0
    rw [upd2_same, ect_col0]
  · intro a b hab
    unfold qCov at hab
    have hb : a = seq.length ∧ b = m + 1 ∧ 1 ≤ seq.length := by omega
    obtain ⟨h1, h2, h3⟩ := hb
    subst h1; subst h2
    unfold outerInit
    rw [if_pos (by omega)]
    show upd2 s.q (seq.length + 1 - 1) (m + 1) 0 seq.length (m + 1)
      = qtail p m (seq.drop (seq.length - 1)) (m + 1)
    rw [show seq.length + 1 - 1 = seq.length from by omega, upd2_same,
      qtail_hi p m _ (m + 1) (le_refl _)]
  · intro a b hab
    unfold fCov at hab
    have hb : a = 1 ∧ b = 0 := by omega
    obtain ⟨h1, h2⟩ := hb
    subst h1; subst h2
    rw [outerInit_f]
    show upd2 s.f 1 0 0 1 0 = fins p seq job 1 0
    rw [upd2_same]
    rfl

theorem outerInit_step (seq : List Nat) (p : Nat → Nat → Int) (job m i : Nat)
    (s : TScr) (hi1 : 1 ≤ i) (hin : i + 1 ≤ seq.length + 1)
    (h : MInv seq p job m i m s) :
    MInv seq p job m (i + 1) 0 (outerInit seq.length m (i + 1) s) := by
  obtain ⟨he, hq, hf⟩ := h
  refine ⟨?_, ?_, ?_⟩
  · intro a b hab
    unfold outerInit
    by_cases hlt : i + 1 < seq.length + 1
    · rw [if_pos hlt]
      by_cases hab2 : a = i + 1 ∧ b = 0
      · obtain ⟨h1, h2⟩ := hab2
        subst h1; subst h2
        show upd2 s.e (i + 1) 0 0 (i + 1) 0 = ect p seq (i + 1) 0
        rw [upd2_same, ect_col0]
      · show upd2 s.e (i + 1) 0 0 a b = _
        rw [upd2_ne _ _ _ _ _ _ hab2]
        apply he
        unfold eCov at hab ⊢
        omega
    · rw [if_neg hlt]
      apply he
      unfold eCov at hab ⊢
      omega
  · intro a b hab
    unfold outerInit
    by_cases hlt : i + 1 < seq.length + 1
    · rw [if_pos hlt]
      by_cases hab2 : a = seq.length + 1 - (i + 1) ∧ b = m + 1
      · obtain ⟨h1, h2⟩ := hab2
        subst h1; subst h2
        show upd2 s.q (seq.length + 1 - (i + 1)) (m + 1) 0
            (seq.length + 1 - (i + 1)) (m + 1)
          = qtail p m (seq.drop (seq.length + 1 - (i + 1) - 1)) (m + 1)
        rw [upd2_same, qtail_hi p m _ (m + 1) (le_refl _)]
      · show upd2 s.q (seq.length + 1 - (i + 1)) (m + 1) 0 a b = _
        rw [upd2_ne _ _ _ _ _ _ hab2]
        apply hq
        unfold qCov at hab ⊢
        omega
    · rw [if_neg hlt]
      apply hq
      unfold qCov at hab ⊢
      omega
  · intro a b hab
    rw [outerInit_f]
    by_cases hab2 : a = i + 1 ∧ b = 0
    · obtain ⟨h1, h2⟩ := hab2
      subst h1; subst h2
      show upd2 s.f (i + 1) 0 0 (i + 1) 0 = fins p seq job (i + 1) 0
      rw [upd2_same]
      rfl
    · show upd2 s.f (i + 1) 0 0 a b = _
      rw [upd2_ne _ _ _ _ _ _ hab2]
      apply hf
      unfold fCov at hab ⊢
      omega

theorem innerFold_inv (seq : List Nat) (p : Nat → Nat → Int) (job m i : Nat)
    (hi1 : 1 ≤ i) (hin : i ≤ seq.length + 1) :
    ∀ j0, j0 ≤ m → ∀ s : TScr, MInv seq p job m i 0 s →
      MInv seq p job m i j0
        ((List.range j0).foldl
          (fun s jx => mainBody seq.length m seq p job i (jx + 1) s) s) := by
  intro j0
  induction j0 with
  | zero =>
      intro _ s hs
      rw [List.range_zero]
      exact hs
  | succ j0 ih =>
      intro hj s hs
      rw [List.range_succ, List.foldl_append]
      simp only [List.foldl_cons, List.foldl_nil]
      exact mainBody_inv seq p job m i j0 _ hi1 hin (by omega)
        (ih (by omega) s hs)

theorem mainLoop_inv (seq : List Nat) (p : Nat → Nat → Int) (job m : Nat)
    (init : TScr) :
    MInv seq p job m (seq.length + 1) m (mainLoop seq p job m init) := by
  have key : ∀ k, 1 ≤ k → k ≤ seq.length + 1 →
      MInv seq p job m k m
        ((List.range k).foldl
          (fun s i0 =>
            (List.range m).foldl
              (fun s j0 => mainBody seq.length m seq p job (i0 + 1) (j0 + 1) s)
              (outerInit seq.length m (i0 + 1) s))
          init) := by
    intro k
    induction k with
    | zero => omega
    | succ k ih =>
        intro _ hk
        rw [List.range_succ, List.foldl_append]
        simp only [List.foldl_cons, List.foldl_nil]
        rcases Nat.eq_zero_or_pos k with hk0 | hk0
        · subst hk0
          exact innerFold_inv seq p job m 1 (le_refl _) (by omega) m (le_refl _) _
            (outerInit_base seq p job m _)
        · exact innerFold_inv seq p job m (k + 1) (by omega) hk m (le_refl _) _
            (outerInit_step seq p job m k _ hk0 hk (ih hk0 (by omega)))
  exact key (seq.length + 1) (by omega) (le_refl _)

theorem msB_f (i jx : Nat) (s : TScr) : (msB i jx s).f = s.f := by
  unfold msB
  split <;> rfl

theorem msB_q (i jx : Nat) (s : TScr) : (msB i jx s).q = s.q := by
  unfold msB
  split <;> rfl

theorem msB_ms_i (i jx : Nat) (s : TScr) :
    (msB i jx s).ms i = max (s.ms i) (s.f i (jx + 1) + s.q i (jx + 1)) := by
  unfold msB
  split
  · rename_i h
    show upd1 s.ms i _ i = _
    rw [upd1_same]
    exact (max_eq_right (le_of_lt h)).symm
  · rename_i h
    exact (max_eq_left (not_lt.mp h)).symm

theorem msB_ms_ne (i jx x : Nat) (s : TScr) (h : x ≠ i) :
    (msB i jx s).ms x = s.ms x := by
  unfold msB
  split
  · exact upd1_ne _ _ _ _ h
  · rfl

theorem msStep_spec (m i : Nat) (s : TScr) :
    (msStep m i s).f = s.f ∧ (msStep m i s).q = s.q ∧
    (msStep m i s).ms i = maxJ m (fun j => s.f i j + s.q i j) ∧
    (∀ x, x ≠ i → (msStep m i s).ms x = s.ms x) := by
  have key : ∀ j0 : Nat,
      ((List.range j0).foldl (fun s j0 => msB i j0 s) { s with ms := upd1 s.ms i 0 }).f = s.f ∧
      ((List.range j0).foldl (fun s j0 => msB i j0 s) { s with ms := upd1 s.ms i 0 }).q = s.q ∧
      ((List.range j0).foldl (fun s j0 => msB i j0 s) { s with ms := upd1 s.ms i 0 }).ms i
        = (List.range j0).foldl (fun a jx => max a (s.f i (jx + 1) + s.q i (jx + 1))) 0 ∧
      (∀ x, x ≠ i →
        ((List.range j0).foldl (fun s j0 => msB i j0 s) { s with ms := upd1 s.ms i 0 }).ms x
          = s.ms x) := by
    intro j0
    induction j0 with
    | zero =>
        refine ⟨rfl, rfl, ?_, ?_⟩
        · rw [List.range_zero, List.foldl_nil, List.foldl_nil]
          exact upd1_same s.ms i 0
        · intro x hx
          rw [List.range_zero, List.foldl_nil]
          exact upd1_ne s.ms i x 0 hx
    | succ j0 ih =>
        obtain ⟨h1, h2, h3, h4⟩ := ih
        rw [List.range_succ, List.foldl_append, List.foldl_append]
        simp only [List.foldl_cons, List.foldl_nil]
        refine ⟨by rw [msB_f, h1], by rw [msB_q, h2], ?_, ?_⟩
        · rw [msB_ms_i, h1, h2, h3]
        · intro x hx
          rw [msB_ms_ne _ _ _ _ hx]
          exact h4 x hx
  obtain ⟨h1, h2, h3, h4⟩ := key m
  exact ⟨h1, h2, h3, h4⟩

theorem selB_fst (m : Nat) (acc : TScr × Nat × Int) (i0 : Nat) :
    (selB m acc i0).1 = msStep m (i0 + 1) acc.1 := by
  unfold selB
  split <;> rfl

theorem msSelLoop_sel (n m : Nat) (s : TScr) (v : Nat → Int)
    (hv : ∀ i, 1 ≤ i → i ≤ n + 1 → maxJ m (fun j => s.f i j + s.q i j) = v i) :
    (msSelLoop n m s).2 = selP v (n + 1) := by
  unfold msSelLoop selP
  have key : ∀ k, k ≤ n + 1 →
      ((List.range k).foldl (selB m) (s, 0, 0)).1.f = s.f ∧
      ((List.range k).foldl (selB m) (s, 0, 0)).1.q = s.q ∧
      ((List.range k).foldl (selB m) (s, 0, 0)).2
        = (List.range k).foldl
            (fun acc i0 => if v (i0 + 1) < acc.2 ∨ acc.2 = 0 then (i0 + 1, v (i0 + 1)) else acc)
            (0, 0) := by
    intro k
    induction k with
    | zero => exact fun _ => ⟨rfl, rfl, rfl⟩
    | succ k ih =>
        intro hk
        obtain ⟨h1, h2, h3⟩ := ih (by omega)
        rw [List.range_succ, List.foldl_append, List.foldl_append]
        simp only [List.foldl_cons, List.foldl_nil]
        set prev := (List.range k).foldl (selB m) (s, 0, 0) with hprev
        set pfold := (List.range k).foldl
            (fun acc i0 => if v (i0 + 1) < acc.2 ∨ acc.2 = 0 then (i0 + 1, v (i0 + 1)) else acc)
            (0, 0) with hpfold
        obtain ⟨g1, g2, g3, g4⟩ := msStep_spec m (k + 1) prev.1
        have hms : (msStep m (k + 1) prev.1).ms (k + 1) = v (k + 1) := by
          rw [g3, h1, h2]
          exact hv (k + 1) (by omega) (by omega)
        refine ⟨?_, ?_, ?_⟩
        · rw [selB_fst, g1, h1]
        · rw [selB_fst, g2, h2]
        · unfold selB
          rw [hms]
          by_cases hc : v (k + 1) < prev.2.2 ∨ prev.2.2 = 0
          · rw [if_pos hc, ← h3, if_pos hc]
          · rw [if_neg hc, ← h3, if_neg hc]
  exact (key (n + 1) (le_refl _)).2.2

theorem taillard_tb0 (seq : List Nat) (p : Nat → Nat → Int) (job m : Nat)
    (init : TScr) :
    taillard_acceleration seq p job m 0 init = taillard_pure seq p job m := by
  obtain ⟨he, hq, hf⟩ := mainLoop_inv seq p job m init
  have hv : ∀ i, 1 ≤ i → i ≤ seq.length + 1 →
      maxJ m (fun j =>
        (mainLoop seq p job m init).f i j + (mainLoop seq p job m init).q i j)
        = msPure seq p job m i := by
    intro i h1 h2
    unfold msPure
    apply maxJ_congr
    intro j hj1 hj2
    rw [hf i j (by unfold fCov; omega), hq i j (by unfold qCov; omega)]
  have h := msSelLoop_sel seq.length m (mainLoop seq p job m init)
    (msPure seq p job m) hv
  show ((msSelLoop seq.length m (mainLoop seq p job m init)).2.1,
    (msSelLoop seq.length m (mainLoop seq p job m init)).2.2) = taillard_pure seq p job m
  unfold taillard_pure
  rw [← h]

theorem selP_one (v : Nat → Int) : selP v 1 = (1, v 1) := by
  unfold selP
  rw [List.range_succ, List.range_zero]
  simp

theorem selP_succ (v : Nat → Int) (k : Nat) :
    selP v (k + 1) = if v (k + 1) < (selP v k).2 ∨ (selP v k).2 = 0
      then (k + 1, v (k + 1)) else selP v k := by
  unfold selP
  rw [List.range_succ, List.foldl_append]
  simp only [List.foldl_cons, List.foldl_nil]

theorem selP_pos (v : Nat → Int) :
    ∀ k, 1 ≤ k → (∀ i, 1 ≤ i → i ≤ k → 0 < v i) →
      1 ≤ (selP v k).1 ∧ (selP v k).1 ≤ k ∧ v (selP v k).1 = (selP v k).2 ∧
      (∀ i, 1 ≤ i → i ≤ k → (selP v k).2 ≤ v i) ∧
      (∀ i, 1 ≤ i → i < (selP v k).1 → (selP v k).2 < v i) := by
  intro k
  induction k with
  | zero => omega
  | succ k ih =>
      intro _ hall
      rcases Nat.eq_zero_or_pos k with hk0 | hk0
      · subst hk0
        rw [selP_one]
        refine ⟨le_refl _, le_refl _, rfl, ?_, ?_⟩
        · intro i h1 h2
          have hi : i = 1 := by omega
          subst hi
          exact le_refl _
        · intro i h1 h2
          omega
      · obtain ⟨ih1, ih2, ih3, ih4, ih5⟩ := ih hk0 (fun i a b => hall i a (by omega))
        rw [selP_succ]
        have hp2 : 0 < (selP v k).2 := by
          rw [← ih3]
          exact hall _ (by omega) (by omega)
        by_cases hc : v (k + 1) < (selP v k).2
        · rw [if_pos (Or.inl hc)]
          refine ⟨by omega, le_refl _, rfl, ?_, ?_⟩
          · intro i h1 h2
            show v (k + 1) ≤ v i
            rcases Nat.lt_or_ge i (k + 1) with h | h
            · have := ih4 i h1 (by omega)
              linarith
            · have hi : i = k + 1 := by omega
              subst hi
              exact le_refl _
          · intro i h1 h2
            show v (k + 1) < v i
            have h2a : i ≤ k := by omega
            have := ih4 i h1 h2a
            linarith
        · have hcond : ¬(v (k + 1) < (selP v k).2 ∨ (selP v k).2 = 0) := by
            intro h
            rcases h with h | h
            · exact hc h
            · omega
          rw [if_neg hcond]
          refine ⟨ih1, by omega, ih3, ?_, ih5⟩
          intro i h1 h2
          rcases Nat.lt_or_ge i (k + 1) with h | h
          · exact ih4 i h1 (by omega)
          · have hi : i = k + 1 := by omega
            subst hi
            exact not_lt.mp hc

theorem selP_zero_all (v : Nat → Int) :
    ∀ k, 1 ≤ k → (∀ i, 1 ≤ i → i ≤ k → v i = 0) → selP v k = (k, 0) := by
  intro k
  induction k with
  | zero => omega
  | succ k ih =>
      intro _ hz
      rcases Nat.eq_zero_or_pos k with hk0 | hk0
      · subst hk0
        rw [selP_one, hz 1 (le_refl _) (le_refl _)]
      · rw [selP_succ, ih hk0 (fun i a b => hz i a (by omega)),
          hz (k + 1) (by omega) (le_refl _)]
        rw [if_pos (Or.inr rfl)]

theorem msPure_nonneg (seq : List Nat) (p : Nat → Nat → Int) (job m i : Nat) :
    0 ≤ msPure seq p job m i :=
  maxJ_nonneg m _

theorem msPure_eq_brute (seq : List Nat) (p : Nat → Nat → Int) (job m i : Nat)
    (hp : ∀ a c, 0 ≤ p a c) (hi1 : 1 ≤ i) (hin : i ≤ seq.length + 1) :
    msPure seq p job m i = bruteMakespan seq p job m i := by
  unfold bruteMakespan
  rw [cct_scalar_eq]
  have hlen : (insertAt seq i job).length = seq.length + 1 :=
    insertAt_length seq i job hi1 hin
  rw [cross p (insertAt seq i job) m hp ((insertAt seq i job).length - i) i
    (by omega) hi1]
  unfold msPure
  apply maxJ_congr
  intro j h1 h2
  rw [fins_eq_ect p seq job i hi1 hin j, insertAt_drop seq i job hi1 (by omega)]

theorem mem_insertAt (seq : List Nat) (i job x : Nat)
    (h : x ∈ seq ∨ x = job) : x ∈ insertAt seq i job := by
  unfold insertAt
  rcases h with h | h
  · rw [← List.take_append_drop (i - 1) seq] at h
    rcases List.mem_append.mp h with h | h
    · exact List.mem_append.mpr (Or.inl h)
    · exact List.mem_append.mpr (Or.inr (List.mem_cons_of_mem _ h))
  · subst h
    exact List.mem_append.mpr (Or.inr (List.mem_cons_self _ _))

theorem brute_zero_all (seq : List Nat) (p : Nat → Nat → Int) (job m : Nat)
    (hp : ∀ a c, 0 ≤ p a c) (i0 i : Nat)
    (h01 : 1 ≤ i0) (h02 : i0 ≤ seq.length + 1)
    (hz : bruteMakespan seq p job m i0 = 0)
    (hi1 : 1 ≤ i) (hi2 : i ≤ seq.length + 1) :
    bruteMakespan seq p job m i = 0 := by
  unfold bruteMakespan at hz ⊢
  rw [cct_scalar_eq] at hz ⊢
  have hzero : ∀ x ∈ insertAt seq i0 job, ∀ c, c < m → p (x - 1) c = 0 := by
    intro x hx c hc
    obtain ⟨t, ht, hxt⟩ := List.getElem_of_mem hx
    have hb := @ect_ge_entry p (insertAt seq i0 job) hp (t + 1)
      (insertAt seq i0 job).length (c + 1) m (by omega) (by omega) (le_refl _)
      (by omega) (by omega)
    rw [show t + 1 - 1 = t from rfl, show c + 1 - 1 = c from rfl] at hb
    rw [getD_eq_getElem _ t ht, hxt, hz] at hb
    have := hp (x - 1) c
    omega
  apply ect_zero_of p m _ _ _ m (le_refl m)
  intro x hx c hc
  exact hzero x (mem_insertAt seq i0 job x (insertAt_mem seq i job x hx)) c hc

/-- The all-ones processing-time matrix, used as a concrete witness input. -/
def pone : Nat → Nat → Int := fun _ _ => 1

/-- C1 (amended): for every sequence of length at most 8 with distinct job
ids, machine count in [1, 4], non-negative processing times and an inserting
job not in the sequence, the makespan returned by taillard_acceleration with
use_tie_breaking = 0 (under any initial scratch contents) equals the minimum
over all n+1 insertion positions of the scalar produced by
calculate_completion_times on the actually inserted sequence, and — the
amendment — whenever that minimum is positive, the returned position is the
smallest 1-based index achieving it.  (When the minimum is zero the selection
loop's best_makespan == 0 test keeps firing and the code returns position
n+1 instead, see the counterexample.) -/
theorem taillard_best_insertion (seq : List Nat) (p : Nat → Nat → Int) (job m : Nat)
    (init : TScr) (hlen : seq.length ≤ 8) (hnd : seq.Nodup)
    (hids : ∀ x ∈ seq, 1 ≤ x) (hjob : 1 ≤ job) (hnotin : job ∉ seq)
    (hm1 : 1 ≤ m) (hm4 : m ≤ 4) (hp : ∀ a c, 0 ≤ p a c) :
    (∀ i, 1 ≤ i → i ≤ seq.length + 1 →
      (taillard_acceleration seq p job m 0 init).2 ≤ bruteMakespan seq p job m i) ∧
    1 ≤ (taillard_acceleration seq p job m 0 init).1 ∧
    (taillard_acceleration seq p job m 0 init).1 ≤ seq.length + 1 ∧
    bruteMakespan seq p job m (taillard_acceleration seq p job m 0 init).1
      = (taillard_acceleration seq p job m 0 init).2 ∧
    (0 < (taillard_acceleration seq p job m 0 init).2 →
      ∀ i, 1 ≤ i → i < (taillard_acceleration seq p job m 0 init).1 →
        (taillard_acceleration seq p job m 0 init).2 < bruteMakespan seq p job m i) := by
  rw [taillard_tb0]
  unfold taillard_pure
  have hvb : ∀ i, 1 ≤ i → i ≤ seq.length + 1 →
      msPure seq p job m i = bruteMakespan seq p job m i :=
    fun i h1 h2 => msPure_eq_brute seq p job m i hp h1 h2
  by_cases hall : ∀ i, 1 ≤ i → i ≤ seq.length + 1 → 0 < msPure seq p job m i
  · obtain ⟨g1, g2, g3, g4, g5⟩ := selP_pos (msPure seq p job m) (seq.length + 1)
      (by omega) hall
    refine ⟨?_, g1, g2, ?_, ?_⟩
    · intro i h1 h2
      rw [← hvb i h1 h2]
      exact g4 i h1 h2
    · rw [← hvb _ g1 g2]
      exact g3
    · intro hpos i h1 h2
      rw [← hvb i h1 (by omega)]
      exact g5 i h1 h2
  · push_neg at hall
    obtain ⟨i0, h01, h02, h03⟩ := hall
    have hz : msPure seq p job m i0 = 0 :=
      le_antisymm h03 (msPure_nonneg seq p job m i0)
    have hzb : ∀ i, 1 ≤ i → i ≤ seq.length + 1 → bruteMakespan seq p job m i = 0 := by
      intro i h1 h2
      exact brute_zero_all seq p job m hp i0 i h01 h02
        (by rw [← hvb i0 h01 h02]; exact hz) h1 h2
    have hva : ∀ i, 1 ≤ i → i ≤ seq.length + 1 → msPure seq p job m i = 0 := by
      intro i h1 h2
      rw [hvb i h1 h2]
      exact hzb i h1 h2
    rw [selP_zero_all (msPure seq p job m) (seq.length + 1) (by omega) hva]
    refine ⟨?_, by omega, by omega, ?_, ?_⟩
    · intro i h1 h2
      rw [hzb i h1 h2]
    · show bruteMakespan seq p job m (seq.length + 1) = (0 : Int)
      exact hzb (seq.length + 1) (by omega) (le_refl _)
    · intro hpos
      exact absurd hpos (lt_irrefl 0)

/-- C1 counterexample to the claim as frozen: with the all-zero matrix,
sequence [1], inserting job 2 and one machine, taillard_acceleration with
use_tie_breaking = 0 returns position 2 with makespan 0, even though
position 1 already achieves that (minimal) makespan 0 and 1 < 2 — so the
returned position is not the smallest index achieving the minimum. -/
theorem taillard_best_insertion_cex :
    taillard_acceleration [1] pz 2 1 0 zeroScr = (2, 0) ∧
    bruteMakespan [1] pz 2 1 1 = 0 ∧ (1 : Nat) < 2 := by
  decide

/-- C1 witness: the amended theorem applied to the concrete instance
seq = [1], all-one matrix, inserting job 2, one machine, zero scratch. -/
theorem taillard_best_insertion_witness :
    (([1] : List Nat).length ≤ 8 ∧ ([1] : List Nat).Nodup ∧
      (∀ x ∈ ([1] : List Nat), 1 ≤ x) ∧ 1 ≤ 2 ∧ 2 ∉ ([1] : List Nat) ∧
      1 ≤ 1 ∧ 1 ≤ 4 ∧ (∀ a c, (0 : Int) ≤ pone a c)) ∧
    ((∀ i, 1 ≤ i → i ≤ ([1] : List Nat).length + 1 →
      (taillard_acceleration [1] pone 2 1 0 zeroScr).2 ≤ bruteMakespan [1] pone 2 1 i) ∧
    1 ≤ (taillard_acceleration [1] pone 2 1 0 zeroScr).1 ∧
    (taillard_acceleration [1] pone 2 1 0 zeroScr).1 ≤ ([1] : List Nat).length + 1 ∧
    bruteMakespan [1] pone 2 1 (taillard_acceleration [1] pone 2 1 0 zeroScr).1
      = (taillard_acceleration [1] pone 2 1 0 zeroScr).2 ∧
    (0 < (taillard_acceleration [1] pone 2 1 0 zeroScr).2 →
      ∀ i, 1 ≤ i → i < (taillard_acceleration [1] pone 2 1 0 zeroScr).1 →
        (taillard_acceleration [1] pone 2 1 0 zeroScr).2 < bruteMakespan [1] pone 2 1 i)) :=
  ⟨⟨by decide, by decide, by decide, by decide, by decide, by decide, by decide,
    fun a c => Int.one_nonneg⟩,
   taillard_best_insertion [1] pone 2 1 zeroScr (by decide) (by decide) (by decide)
    (by decide) (by decide) (by decide) (by decide) (fun a c => Int.one_nonneg)⟩

/-- C4: on Scenario 2 of the specification (p[job1] = [3,2], p[job2] = [2,4],
p[job3] = [1,1], two machines), taillard_acceleration([job1, job2], p, job3,
2, use_tie_breaking = 0) returns position 1 and makespan 10, for every
initial content of the scratch arrays. -/
theorem taillard_scenario2 (init : TScr) :
    taillard_acceleration [1, 2] pS2 3 2 0 init = (1, 10) := by
  rw [taillard_tb0]
  decide

/-- C5: for every non-negative processing-time matrix and valid inserting
job, calling taillard_acceleration with the empty sequence and
use_tie_breaking = 0 returns position 1 and a makespan equal to the sum of
the inserting job's processing times over machines 1..num_machines,
for every initial content of the scratch arrays. -/
theorem taillard_empty_seq (p : Nat → Nat → Int) (job m : Nat) (init : TScr)
    (hp : ∀ a c, 0 ≤ p a c) (hjob : 1 ≤ job) :
    taillard_acceleration [] p job m 0 init = (1, sumP p job m) := by
  rw [taillard_tb0]
  unfold taillard_pure
  rw [show ([] : List Nat).length + 1 = 1 from rfl, selP_one]
  have hfin : ∀ j, fins p [] job 1 j = ∑ c ∈ Finset.range j, p (job - 1) c := by
    intro j
    induction j with
    | zero =>
        rw [Finset.range_zero, Finset.sum_empty]
        rfl
    | succ j ih =>
        rw [fins_succ, ih, Finset.sum_range_succ,
          show (1 : Nat) - 1 = 0 from rfl, ect_row0]
        rw [max_eq_left (Finset.sum_nonneg fun c _ => hp (job - 1) c)]
  have hmsp : msPure [] p job m 1 = sumP p job m := by
    unfold msPure sumP
    rcases Nat.eq_zero_or_pos m with hm | hm
    · subst hm
      rw [maxJ_zero, Finset.range_zero, Finset.sum_empty]
    · have hcg : maxJ m (fun j => fins p [] job 1 j + qtail p m (([] : List Nat).drop (1 - 1)) j)
          = maxJ m (fun j => fins p [] job 1 j) := by
        apply maxJ_congr
        intro j h1 h2
        rw [show ([] : List Nat).drop (1 - 1) = [] from rfl, qtail_nil_app, add_zero]
      rw [hcg]
      have hlast : maxJ m (fun j => fins p [] job 1 j) = fins p [] job 1 m := by
        apply maxJ_eq_last m _ hm
        · intro j h1 h2
          rw [fins_succ]
          exact le_trans (le_max_left _ _) (le_add_of_nonneg_right (hp (job - 1) j))
        · intro j h1 h2
          exact fins_nonneg p [] job 1 hp j
      rw [hlast, hfin m]
  rw [hmsp]

/-- C5 witness: the theorem applied to the all-one matrix, inserting job 1,
two machines and zero scratch (the sum of processing times is 2). -/
theorem taillard_empty_seq_witness :
    ((∀ a c, (0 : Int) ≤ pone a c) ∧ 1 ≤ 1) ∧
    taillard_acceleration [] pone 1 2 0 zeroScr = (1, sumP pone 1 2) :=
  ⟨⟨fun a c => Int.one_nonneg, le_refl 1⟩,
   taillard_empty_seq pone 1 2 zeroScr (fun a c => Int.one_nonneg) (le_refl 1)⟩

/-- C3: the claim of determinism fails on the code.  With identical explicit
inputs (Scenario 2's matrix, sequence [1, 2], inserting job 3, two machines)
and use_tie_breaking = 1, the result depends on the content of the
uninitialized scratch memory: tie_breaking reads the never-written cell
e[n+1][j] (its last-position test compares i against sequence_length, but
the last insertion position is sequence_length + 1), so all-zero garbage
yields position 1 while garbage with e[3][2] = 11 yields position 3. -/
theorem taillard_tie_breaking_uninit :
    taillard_acceleration [1, 2] pS2 3 2 1 zeroScr
      ≠ taillard_acceleration [1, 2] pS2 3 2 1 badScr := by
  decide

/-- C6 (amended): on a zero-length sequence or a zero machine count,
calculate_completion_times with return_array = 0 does not fail: it returns
the boundary value 0 of the zero-initialized table. -/
theorem cct_zero_dims (seq : List Nat) (p : Nat → Nat → Int) (m : Nat)
    (h : seq.length = 0 ∨ m = 0) :
    calculate_completion_times_scalar seq p m = 0 := by
  rw [cct_scalar_eq]
  rcases h with h | h
  · rw [h]
    exact ect_row0 p seq m
  · subst h
    exact ect_col0 p seq seq.length

/-- C6 counterexample to the claim as frozen: at the concrete inputs
(empty sequence, 3 machines) and (sequence [1], 0 machines) the function
returns the value 0 — a (default) result is produced, no typed failure is
reported to the caller. -/
theorem cct_zero_dims_cex :
    calculate_completion_times_scalar [] pS2 3 = 0 ∧
    calculate_completion_times_scalar [1] pS2 0 = 0 := by
  decide

/-- C6 witness: the amended theorem applied to the empty sequence with two
machines. -/
theorem cct_zero_dims_witness :
    (([] : List Nat).length = 0 ∨ 2 = 0) ∧
    calculate_completion_times_scalar [] pone 2 = 0 :=
  ⟨Or.inl rfl, cct_zero_dims [] pone 2 (Or.inl rfl)⟩

/-- C7: for every sequence, matrix and machine count, the scalar returned by
calculate_completion_times with return_array = 0 equals entry
[sequence_length][num_machines] of the full table returned with
return_array = 1 on the same inputs. -/
theorem cct_scalar_array_consistent (seq : List Nat) (p : Nat → Nat → Int) (m : Nat) :
    calculate_completion_times_scalar seq p m
      = calculate_completion_times_array seq p m seq.length m := rfl

/-- C8: for every valid sequence and non-negative matrix, the full table E
returned by calculate_completion_times satisfies E[i][j] >= E[i-1][j] for
1 <= i <= n and E[i][j] >= E[i][j-1] for 1 <= j <= m (monotonicity along
both the sequence axis and the machine axis, over the whole table). -/
theorem cct_monotone (seq : List Nat) (p : Nat → Nat → Int) (m : Nat)
    (hp : ∀ a c, 0 ≤ p a c) (hids : ∀ x ∈ seq, 1 ≤ x) :
    (∀ i j, 1 ≤ i → i ≤ seq.length → j ≤ m →
      calculate_completion_times_array seq p m (i - 1) j
        ≤ calculate_completion_times_array seq p m i j) ∧
    (∀ i j, 1 ≤ j → j ≤ m → i ≤ seq.length →
      calculate_completion_times_array seq p m i (j - 1)
        ≤ calculate_completion_times_array seq p m i j) := by
  constructor
  · intro i j h1 h2 h3
    unfold calculate_completion_times_array
    rw [cctE_spec seq p m (i - 1) j (by omega) h3, cctE_spec seq p m i j h2 h3]
    have h := ect_mono_row p seq hp (i - 1) (by omega) j
    rw [show i - 1 + 1 = i from by omega] at h
    exact h
  · intro i j h1 h2 h3
    unfold calculate_completion_times_array
    rw [cctE_spec seq p m i (j - 1) h3 (by omega), cctE_spec seq p m i j h3 h2]
    have h := ect_mono_col p seq hp i (j - 1)
    rw [show j - 1 + 1 = j from by omega] at h
    exact h

/-- C8 witness: the monotonicity theorem applied to the sequence [1, 2] with
the all-one matrix and two machines. -/
theorem cct_monotone_witness :
    ((∀ a c, (0 : Int) ≤ pone a c) ∧ (∀ x ∈ ([1, 2] : List Nat), 1 ≤ x)) ∧
    ((∀ i j, 1 ≤ i → i ≤ ([1, 2] : List Nat).length → j ≤ 2 →
      calculate_completion_times_array [1, 2] pone 2 (i - 1) j
        ≤ calculate_completion_times_array [1, 2] pone 2 i j) ∧
    (∀ i j, 1 ≤ j → j ≤ 2 → i ≤ ([1, 2] : List Nat).length →
      calculate_completion_times_array [1, 2] pone 2 i (j - 1)
        ≤ calculate_completion_times_array [1, 2] pone 2 i j)) :=
  ⟨⟨fun a c => Int.one_nonneg, by decide⟩,
   cct_monotone [1, 2] pone 2 (fun a c => Int.one_nonneg) (by decide)⟩

theorem idle_term_nonneg (seq : List Nat) (p : Nat → Nat → Int) (m i j : Nat)
    (hi : i < seq.length) (hj1 : 1 ≤ j) (hjm : j ≤ m) :
    0 ≤ cctE seq p m (i + 1) j - p (seq.getD i 0 - 1) (j - 1) - cctE seq p m i j := by
  rw [cctE_spec seq p m (i + 1) j (by omega) hjm, cctE_spec seq p m i j (by omega) hjm]
  have h := ect_succ p seq i hi (j - 1)
  rw [show j - 1 + 1 = j from by omega] at h
  rw [h]
  have h2 := le_max_left (ect p seq i j) (ect p seq (i + 1) (j - 1))
  linarith

/-- C9: for every valid sequence (distinct ids in [1, n]) and every
non-negative processing-time matrix, every entry of the vector returned by
calculate_idle_times is non-negative. -/
theorem calculate_idle_times_nonneg (seq : List Nat) (p : Nat → Nat → Int) (m : Nat)
    (hp : ∀ a c, 0 ≤ p a c) (hids : ∀ x ∈ seq, 1 ≤ x ∧ x ≤ seq.length)
    (hnd : seq.Nodup) :
    ∀ k, k < seq.length → 0 ≤ calculate_idle_times seq p m k := by
  have hinner : ∀ i, i < seq.length → ∀ j0, j0 ≤ m → ∀ g : Nat → Int,
      (∀ x, 0 ≤ g x) →
      ∀ x, 0 ≤ ((List.range j0).foldl
        (fun idle jx =>
          upd1 idle (seq.getD i 0 - 1)
            (idle (seq.getD i 0 - 1) +
              (cctE seq p m (i + 1) (jx + 1) - p (seq.getD i 0 - 1) (jx + 1 - 1)
                - cctE seq p m i (jx + 1)))) g) x := by
    intro i hi j0
    induction j0 with
    | zero =>
        intro _ g hg x
        rw [List.range_zero, List.foldl_nil]
        exact hg x
    | succ j0 ih =>
        intro hj g hg x
        rw [List.range_succ, List.foldl_append]
        simp only [List.foldl_cons, List.foldl_nil]
        by_cases hx : x = seq.getD i 0 - 1
        · subst hx
          rw [upd1_same]
          have h1 := ih (by omega) g hg (seq.getD i 0 - 1)
          have h2 : 0 ≤ cctE seq p m (i + 1) (j0 + 1) - p (seq.getD i 0 - 1) (j0 + 1 - 1)
              - cctE seq p m i (j0 + 1) :=
            idle_term_nonneg seq p m i (j0 + 1) hi (Nat.succ_pos j0) hj
          linarith
        · rw [upd1_ne _ _ _ _ hx]
          exact ih (by omega) g hg x
  have houter : ∀ k0, k0 ≤ seq.length → ∀ x,
      0 ≤ ((List.range k0).foldl
        (fun idle i =>
          (List.range m).foldl
            (fun idle jx =>
              upd1 idle (seq.getD i 0 - 1)
                (idle (seq.getD i 0 - 1) +
                  (cctE seq p m (i + 1) (jx + 1) - p (seq.getD i 0 - 1) (jx + 1 - 1)
                    - cctE seq p m i (jx + 1))))
            (upd1 idle (seq.getD i 0 - 1) 0))
        (fun _ => 0)) x := by
    intro k0
    induction k0 with
    | zero =>
        intro _ x
        rw [List.range_zero, List.foldl_nil]
    | succ k0 ih =>
        intro hk x
        rw [List.range_succ, List.foldl_append]
        simp only [List.foldl_cons, List.foldl_nil]
        apply hinner k0 (by omega) m (le_refl m)
        intro y
        by_cases hy : y = seq.getD k0 0 - 1
        · subst hy
          rw [upd1_same]
        · rw [upd1_ne _ _ _ _ hy]
          exact ih (by omega) y
  intro k hk
  exact houter seq.length (le_refl _) k

/-- C9 witness: the theorem applied to the sequence [2, 1] with the all-one
matrix and two machines. -/
theorem calculate_idle_times_nonneg_witness :
    ((∀ a c, (0 : Int) ≤ pone a c) ∧
      (∀ x ∈ ([2, 1] : List Nat), 1 ≤ x ∧ x ≤ ([2, 1] : List Nat).length) ∧
      ([2, 1] : List Nat).Nodup) ∧
    (∀ k, k < ([2, 1] : List Nat).length → 0 ≤ calculate_idle_times [2, 1] pone 2 k) :=
  ⟨⟨fun a c => Int.one_nonneg, by decide, by decide⟩,
   calculate_idle_times_nonneg [2, 1] pone 2 (fun a c => Int.one_nonneg)
    (by decide) (by decide)⟩

/-- C10: calculate_idle_times writes entry sequence[i] - 1 (C int
arithmetic) of an output vector allocated with length n = sequence length:
every write lands inside the vector exactly when every job id of the
sequence lies in [1, n], and for a partial sequence containing a job id
greater than n the corresponding write index falls at or beyond the end of
the vector. -/
theorem idle_write_bounds (seq : List Nat) :
    ((∀ ix ∈ idleWriteIndices seq, 0 ≤ ix ∧ ix < (seq.length : Int)) ↔
      (∀ x ∈ seq, 1 ≤ x ∧ x ≤ seq.length)) ∧
    (∀ x ∈ seq, seq.length < x →
      ((x : Int) - 1) ∈ idleWriteIndices seq ∧
      ¬((x : Int) - 1 < (seq.length : Int))) := by
  have hmem : ∀ x ∈ seq, ((x : Int) - 1) ∈ idleWriteIndices seq := by
    intro x hx
    simp only [idleWriteIndices, List.mem_map]
    exact ⟨x, hx, rfl⟩
  have hdec : ∀ ix ∈ idleWriteIndices seq, ∃ x, x ∈ seq ∧ (x : Int) - 1 = ix := by
    intro ix hix
    simp only [idleWriteIndices, List.mem_map] at hix
    exact hix
  constructor
  · constructor
    · intro h x hx
      have := h ((x : Int) - 1) (hmem x hx)
      omega
    · intro h ix hix
      obtain ⟨x, hx, hx2⟩ := hdec ix hix
      have := h x hx
      omega
  · intro x hx hgt
    exact ⟨hmem x hx, by omega⟩

/-- C10 witness: the theorem applied to the one-element sequence [3], whose
job id 3 exceeds the vector length 1, giving the out-of-range write index
2. -/
theorem idle_write_bounds_witness :
    (((3 : Nat) : Int) - 1) ∈ idleWriteIndices [3] ∧
    ¬((((3 : Nat) : Int) - 1) < (([3] : List Nat).length : Int)) :=
  (idle_write_bounds [3]).2 3 (by decide) (by decide)

theorem mem_ite_nil {α : Type} (c : Prop) [Decidable c] (l : List α) (a : α) :
    a ∈ (if c then l else []) ↔ c ∧ a ∈ l := by
  split
  · rename_i h
    simp [h]
  · rename_i h
    simp [h]

theorem mainAcc_bound (n m i : Nat) (hn : n ≤ 799) (hm : m ≤ 59) (hi1 : 1 ≤ i)
    (hi : i ≤ n + 1) (rc : Nat × Nat) (h : rc ∈ mainAcc n m i) :
    rc.1 ≤ 800 ∧ rc.2 ≤ 60 := by
  obtain ⟨r, c⟩ := rc
  unfold mainAcc at h
  rcases List.mem_append.mp h with h1 | h2
  · rcases List.mem_append.mp h1 with h3 | h3
    · rw [mem_ite_nil] at h3
      obtain ⟨hlt, h3⟩ := h3
      simp only [List.mem_cons, List.mem_singleton, List.not_mem_nil, or_false,
        Prod.mk.injEq] at h3
      omega
    · simp only [List.mem_singleton, Prod.mk.injEq] at h3
      omega
  · obtain ⟨j0, hj0, h2⟩ := List.mem_flatMap.mp h2
    rw [List.mem_range] at hj0
    rcases List.mem_append.mp h2 with h3 | h3
    · rcases List.mem_append.mp h3 with h4 | h4
      · rw [mem_ite_nil] at h4
        obtain ⟨hi1, h4⟩ := h4
        simp only [List.mem_cons, List.mem_singleton, List.not_mem_nil, or_false,
          Prod.mk.injEq] at h4
        omega
      · rw [mem_ite_nil] at h4
        obtain ⟨hlt, h4⟩ := h4
        simp only [List.mem_cons, List.mem_singleton, List.not_mem_nil, or_false,
          Prod.mk.injEq] at h4
        omega
    · simp only [List.mem_cons, List.mem_singleton, List.not_mem_nil, or_false,
        Prod.mk.injEq] at h3
      omega

/-- C2 (amended): for every call of taillard_acceleration with sequence
length at most 799 and num_machines at most 59, every subscript used on the
scratch arrays e, q, f stays within row index 800 and column index 60, and
every subscript used on ms stays within index 800 — i.e. within the declared
bounds e[801][61], q[801][61], f[801][61], ms[801].  (The claim's limits
n <= 800 and m <= 60 are one too large: the loops touch row n+1 and column
m+1, see the counterexample.) -/
theorem taillard_accesses_in_bounds (n m : Nat) (hn : n ≤ 799) (hm : m ≤ 59) :
    (∀ rc ∈ taillardAcc2D n m, rc.1 ≤ 800 ∧ rc.2 ≤ 60) ∧
    (∀ a ∈ taillardAccMs n, a ≤ 800) := by
  constructor
  · intro rc hrc
    simp only [taillardAcc2D, List.mem_flatMap, List.mem_range, List.mem_append] at hrc
    obtain ⟨i0, hi0, h | h⟩ := hrc
    · exact mainAcc_bound n m (i0 + 1) hn hm (by omega) (by omega) rc h
    · obtain ⟨r, c⟩ := rc
      simp only [selAcc, List.mem_flatMap, List.mem_range, List.mem_cons,
        List.not_mem_nil, or_false, Prod.mk.injEq] at h
      obtain ⟨j0, hj0, h⟩ := h
      omega
  · intro a ha
    simp only [taillardAccMs, List.mem_flatMap, List.mem_range, List.mem_cons,
      List.not_mem_nil, or_false] at ha
    obtain ⟨i0, hi0, ha⟩ := ha
    omega

/-- C2 counterexample to the claim as frozen: already at sequence length 1
and num_machines 60 (within the claimed capacity n <= 800, m <= 60), the
main loop writes q[1][61] (line 52, q[iq][num_machines + 1] = 0), whose
column subscript 61 exceeds 60 and overflows the declared q[801][61]. -/
theorem taillard_accesses_cex :
    ((1 : Nat), (61 : Nat)) ∈ taillardAcc2D 1 60 ∧ ¬((61 : Nat) ≤ 60) := by
  constructor
  · simp only [taillardAcc2D, List.mem_flatMap, List.mem_range]
    refine ⟨0, by omega, ?_⟩
    simp only [List.mem_append]
    left
    simp only [mainAcc, List.mem_append, mem_ite_nil]
    left
    left
    exact ⟨by omega, by decide⟩
  · decide

/-- C2 witness: the amended bound theorem applied at sequence length 2 and
3 machines. -/
theorem taillard_accesses_in_bounds_witness :
    ((2 : Nat) ≤ 799 ∧ (3 : Nat) ≤ 59) ∧
    ((∀ rc ∈ taillardAcc2D 2 3, rc.1 ≤ 800 ∧ rc.2 ≤ 60) ∧
    (∀ a ∈ taillardAccMs 2, a ≤ 800)) :=
  ⟨⟨by decide, by decide⟩, taillard_accesses_in_bounds 2 3 (by decide) (by decide)⟩
